import Mathlib

/-!
Othello move chooser (`AI_part.cpp`): board rules, evaluator, search, selector

A shallow embedding of `src/AI_part.cpp`.

* `int` values are `Int`; none of the quantities below comes near the 32-bit range
  (scores stay within a few millions), so no wrap-around is modelled.
* `std::array<std::array<int, 8>, 8> board` is a map `Int → Int → Int`; the code reads and
  writes a cell only through `get_disc` / `set_disc`, i.e. `board[p.x][p.y]`.  Indices outside
  `0..7` are undefined behaviour in C++; here they simply read the map.
* `std::array<int, 3> disc_count` is a map `Int → Int` used at the indices 0, 1, 2.
* The two `while` loops that walk along a direction are given a step budget; the budget used
  (`8`) is shown to be never exhausted (`is_spot_valid_scan_fuel`, `flip_discs_scan_fuel`).
-/

namespace Othello

/-! ## Data model -/

/-- Source `struct Point`. -/
@[ext]
structure Point where
  x : Int
  y : Int
deriving DecidableEq, Repr

/-- Source `Point::operator+`. -/
instance : Add Point := ⟨fun a b => ⟨a.x + b.x, a.y + b.y⟩⟩

/-- Source `Point::operator-`. -/
instance : Sub Point := ⟨fun a b => ⟨a.x - b.x, a.y - b.y⟩⟩

/-- Source `SPOT_STATE::EMPTY`. -/
def EMPTY : Int := 0
/-- Source `SPOT_STATE::BLACK`. -/
def BLACK : Int := 1
/-- Source `SPOT_STATE::WHITE`. -/
def WHITE : Int := 2
/-- Source `OthelloBoard::SIZE`. -/
def SIZE : Int := 8

/-- Source `OthelloBoard::directions`, in the order of the source. -/
def directions : List Point :=
  [⟨-1, -1⟩, ⟨-1, 0⟩, ⟨-1, 1⟩, ⟨0, -1⟩, ⟨0, 1⟩, ⟨1, -1⟩, ⟨1, 0⟩, ⟨1, 1⟩]

/-- Source `class OthelloBoard` (its data members). -/
structure OthelloBoard where
  board : Int → Int → Int
  next_valid_spots : List Point
  disc_count : Int → Int
  cur_player : Int
  done : Bool
  winner : Int

/-- Source `get_next_player`. -/
def get_next_player (player : Int) : Int := 3 - player

/-- Source `is_spot_on_board`. -/
def is_spot_on_board (p : Point) : Bool :=
  decide (0 ≤ p.x) && decide (p.x < SIZE) && decide (0 ≤ p.y) && decide (p.y < SIZE)

/-- Source `get_disc`: `board[p.x][p.y]`. -/
def get_disc (board : Int → Int → Int) (p : Point) : Int := board p.x p.y

/-- Source `set_disc`: `board[p.x][p.y] = disc`. -/
def set_disc (board : Int → Int → Int) (p : Point) (disc : Int) : Int → Int → Int :=
  fun i j => if i = p.x ∧ j = p.y then disc else board i j

/-- Source `is_disc_at`. -/
def is_disc_at (board : Int → Int → Int) (p : Point) (disc : Int) : Bool :=
  if !is_spot_on_board p then false
  else if get_disc board p != disc then false
  else true

/-- The inner `while` loop of `is_spot_valid`, started at `p`, with a step budget.
`some true` is the `return true`, `some false` is the loop running to its end,
`none` is an exhausted budget. -/
def is_spot_valid_scan (board : Int → Int → Int) (cur_player : Int) (dir : Point) :
    Nat → Point → Option Bool
  | 0, _ => none
  | fuel + 1, p =>
    if is_spot_on_board p && get_disc board p != EMPTY then
      if is_disc_at board p cur_player then some true
      else is_spot_valid_scan board cur_player dir fuel (p + dir)
    else some false

/-- The `for (Point dir : directions)` loop of `is_spot_valid`. -/
def is_spot_valid_dirs (board : Int → Int → Int) (cur_player : Int) (center : Point) :
    List Point → Bool
  | [] => false
  | dir :: rest =>
    let p := center + dir
    if !is_disc_at board p (get_next_player cur_player) then
      is_spot_valid_dirs board cur_player center rest
    else
      match is_spot_valid_scan board cur_player dir 8 (p + dir) with
      | some true => true
      | some false => is_spot_valid_dirs board cur_player center rest
      | none => false

/-- Source `is_spot_valid`. -/
def is_spot_valid (b : OthelloBoard) (center : Point) : Bool :=
  if get_disc b.board center != EMPTY then false
  else is_spot_valid_dirs b.board b.cur_player center directions

/-- The inner `while` loop of `flip_discs`, started at `p` with the run `discs` collected so
far.  `some (some ds)`: a disc of `cur_player` ended the run `ds`; `some none`: the loop ran to
its end without one; `none`: exhausted budget. -/
def flip_discs_scan (board : Int → Int → Int) (cur_player : Int) (dir : Point) :
    Nat → Point → List Point → Option (Option (List Point))
  | 0, _, _ => none
  | fuel + 1, p, discs =>
    if is_spot_on_board p && get_disc board p != EMPTY then
      if is_disc_at board p cur_player then some (some discs)
      else flip_discs_scan board cur_player dir fuel (p + dir) (discs ++ [p])
    else some none

/-- Source `for (Point s : discs) set_disc(s, cur_player);`. -/
def set_discs (board : Int → Int → Int) (cur_player : Int) : List Point → Int → Int → Int
  | [] => board
  | s :: rest => set_discs (set_disc board s cur_player) cur_player rest

/-- Source `disc_count[i] += d`. -/
def disc_count_add (disc_count : Int → Int) (i : Int) (d : Int) : Int → Int :=
  fun k => if k = i then disc_count k + d else disc_count k

/-- The `for (Point dir : directions)` loop of `flip_discs`, threading the two members it
writes (`board`, `disc_count`). -/
def flip_discs_dirs (cur_player : Int) (center : Point) :
    List Point → (Int → Int → Int) × (Int → Int) → (Int → Int → Int) × (Int → Int)
  | [], st => st
  | dir :: rest, st =>
    let p := center + dir
    if !is_disc_at st.1 p (get_next_player cur_player) then
      flip_discs_dirs cur_player center rest st
    else
      match flip_discs_scan st.1 cur_player dir 8 (p + dir) [p] with
      | some (some discs) =>
        let board := set_discs st.1 cur_player discs
        let dc := disc_count_add st.2 cur_player discs.length
        let dc := disc_count_add dc (get_next_player cur_player) (-(discs.length : Int))
        flip_discs_dirs cur_player center rest (board, dc)
      | some none => flip_discs_dirs cur_player center rest st
      | none => st

/-- Source `flip_discs`. -/
def flip_discs (b : OthelloBoard) (center : Point) : OthelloBoard :=
  let st := flip_discs_dirs b.cur_player center directions (b.board, b.disc_count)
  { b with board := st.1, disc_count := st.2 }

/-- The cells `(i, j)` in the order of the two nested `for` loops (`i` outer, `j` inner). -/
def board_cells : List Point :=
  (List.range 8).flatMap fun (i : Nat) =>
    (List.range 8).map fun (j : Nat) => Point.mk (i : Int) (j : Int)

/-- Source `get_valid_spots`. -/
def get_valid_spots (b : OthelloBoard) : List Point :=
  board_cells.filter fun p =>
    if get_disc b.board p != EMPTY then false
    else is_spot_valid b p

/-- Source `reset`: every member is overwritten, so the result does not depend on the old state. -/
def reset : OthelloBoard :=
  let board : Int → Int → Int := fun _ _ => EMPTY
  let board := set_disc board ⟨4, 3⟩ BLACK
  let board := set_disc board ⟨3, 4⟩ BLACK
  let board := set_disc board ⟨4, 4⟩ WHITE
  let board := set_disc board ⟨3, 3⟩ WHITE
  let disc_count : Int → Int := fun _ => 0
  let disc_count := fun k => if k = EMPTY then 8 * 8 - 4 else disc_count k
  let disc_count := fun k => if k = BLACK then 2 else disc_count k
  let disc_count := fun k => if k = WHITE then 2 else disc_count k
  let b : OthelloBoard :=
    { board := board, next_valid_spots := [], disc_count := disc_count,
      cur_player := BLACK, done := false, winner := 0 }
  let b := { b with next_valid_spots := get_valid_spots b }
  { b with done := false, winner := -1 }

/-- Source `put_disc`: the new state and the returned flag. -/
def put_disc (b : OthelloBoard) (p : Point) : OthelloBoard × Bool :=
  if !is_spot_valid b p then
    ({ b with winner := get_next_player b.cur_player, done := true }, false)
  else
    let b := { b with board := set_disc b.board p b.cur_player }
    let b := { b with disc_count := disc_count_add b.disc_count b.cur_player 1 }
    let b := { b with disc_count := disc_count_add b.disc_count EMPTY (-1) }
    let b := flip_discs b p
    let b := { b with cur_player := get_next_player b.cur_player }
    let b := { b with next_valid_spots := get_valid_spots b }
    if b.next_valid_spots.length = 0 then
      let b := { b with cur_player := get_next_player b.cur_player }
      let b := { b with next_valid_spots := get_valid_spots b }
      if b.next_valid_spots.length = 0 then
        let b := { b with done := true }
        let white_discs := b.disc_count WHITE
        let black_discs := b.disc_count BLACK
        if white_discs = black_discs then ({ b with winner := EMPTY }, true)
        else if black_discs > white_discs then ({ b with winner := BLACK }, true)
        else ({ b with winner := WHITE }, true)
      else (b, true)
    else (b, true)

/-! ## Positional evaluator -/

/-- Source `is_corner`. -/
def is_corner (p : Point) : Bool :=
  if p.x = 0 ∨ p.x = 7 then
    if p.y = 0 ∨ p.y = 7 then true else false
  else false

/-- Source `is_deadedge`. -/
def is_deadedge (p : Point) : Bool :=
  if p.x = 1 ∨ p.x = 6 then
    if p.y = 0 ∨ p.y = 7 then true else false
  else if p.y = 1 ∨ p.y = 6 then
    if p.x = 0 ∨ p.x = 7 then true else false
  else false

/-- Source `is_edge`. -/
def is_edge (p : Point) : Bool :=
  if p.x > 1 ∧ p.x < 6 then
    if p.y = 0 ∨ p.y = 7 then true else false
  else if p.y > 1 ∧ p.y < 6 then
    if p.x = 0 ∨ p.x = 7 then true else false
  else false

/-- Source `is_goodedge`. -/
def is_goodedge (p : Point) : Bool :=
  if p.x > 2 ∧ p.x < 5 then
    if p.y = 2 ∨ p.y = 5 then true else false
  else if p.y > 2 ∧ p.y < 5 then
    if p.x = 2 ∨ p.x = 5 then true else false
  else false

/-- Source `is_notgoodedge`. -/
def is_notgoodedge (p : Point) : Bool :=
  if p.x > 1 ∧ p.x < 6 then
    if p.y = 1 ∨ p.y = 6 then true else false
  else if p.y > 1 ∧ p.y < 6 then
    if p.x = 1 ∨ p.x = 6 then true else false
  else false

/-- Source `is_notgoodcorner`. -/
def is_notgoodcorner (p : Point) : Bool :=
  if p.x = 1 ∧ p.y = 1 then true
  else if p.x = 6 ∧ p.y = 1 then true
  else if p.x = 1 ∧ p.y = 6 then true
  else if p.x = 6 ∧ p.y = 6 then true
  else false

/-- Source `is_goodcorner` (the first and third tests are the same in the source). -/
def is_goodcorner (p : Point) : Bool :=
  if p.x = 2 ∧ p.y = 5 then true
  else if p.x = 5 ∧ p.y = 2 then true
  else if p.x = 2 ∧ p.y = 5 then true
  else if p.x = 5 ∧ p.y = 5 then true
  else false

/-- The `if / else if` chain in the body of the two loops of `find_heur`: what one cell adds
to `curheur`. -/
def find_heur_cell (curp : Point) : Int :=
  if is_corner curp then 500000
  else if is_edge curp then 1000
  else if is_notgoodcorner curp then -5000
  else if is_deadedge curp then -5000
  else if is_goodcorner curp then 50
  else if is_notgoodedge curp then 0
  else if is_goodedge curp then 100
  else 0

/-- Source `find_heur`. -/
def find_heur (curboard : OthelloBoard) : Int :=
  let curvalid := get_valid_spots curboard
  let curheur := board_cells.foldl (fun acc curp => acc + find_heur_cell curp) 0
  curheur - (curvalid.length : Int) * 10

/-! ## Search engine -/

/-- The child node built inside the loops of `minimax`:
`OthelloBoard newboard; newboard.board = curboard.board;
newboard.cur_player = curboard.cur_player; newboard.put_disc(p);`. -/
def make_newboard (curboard : OthelloBoard) (p : Point) : OthelloBoard :=
  let newboard := reset
  let newboard := { newboard with board := curboard.board }
  let newboard := { newboard with cur_player := curboard.cur_player }
  (put_disc newboard p).1

/-- The `for` loop of the maximizing branch of `minimax` over the remaining valid spots;
`child` is the recursive call at `depth - 1`. -/
def minimax_max_loop (child : OthelloBoard → Int → Int → Int) (curboard : OthelloBoard)
    (beta : Int) : List Point → Int → Int → Int
  | [], maxheur, _ => maxheur
  | p :: rest, maxheur, alpha =>
    let newboard := make_newboard curboard p
    let curheur := child newboard alpha beta
    let maxheur := max maxheur curheur
    let alpha := max alpha curheur
    if beta ≤ alpha then maxheur
    else minimax_max_loop child curboard beta rest maxheur alpha

/-- The `for` loop of the minimizing branch of `minimax`. -/
def minimax_min_loop (child : OthelloBoard → Int → Int → Int) (curboard : OthelloBoard)
    (alpha : Int) : List Point → Int → Int → Int
  | [], minheur, _ => minheur
  | p :: rest, minheur, beta =>
    let newboard := make_newboard curboard p
    let curheur := child newboard alpha beta
    let curheur := if is_corner p then curheur - 50000 else curheur
    let minheur := min minheur curheur
    let beta := min beta curheur
    if beta ≤ alpha then minheur
    else minimax_min_loop child curboard alpha rest minheur beta

/-- Source `minimax` (for `depth ≥ 0`). -/
def minimax (curboard : OthelloBoard) : Nat → Int → Int → Int → Int
  | 0, _, _, _ => find_heur curboard
  | depth + 1, alpha, beta, curplayer =>
    if curboard.done then find_heur curboard
    else if curboard.cur_player = curplayer then
      minimax_max_loop (fun newboard a b => minimax newboard depth a b curplayer)
        curboard beta (get_valid_spots curboard) (-10000000) alpha
    else
      minimax_min_loop (fun newboard a b => minimax newboard depth a b (3 - curplayer))
        curboard alpha (get_valid_spots curboard) 10000000 beta

/-- The maximizing loop of `minimax` with `if (beta <= alpha) break;` removed. -/
def nocut_max_loop (child : OthelloBoard → Int → Int → Int) (curboard : OthelloBoard)
    (beta : Int) : List Point → Int → Int → Int
  | [], maxheur, _ => maxheur
  | p :: rest, maxheur, alpha =>
    let newboard := make_newboard curboard p
    let curheur := child newboard alpha beta
    let maxheur := max maxheur curheur
    let alpha := max alpha curheur
    nocut_max_loop child curboard beta rest maxheur alpha

/-- The minimizing loop of `minimax` with `if (beta <= alpha) break;` removed. -/
def nocut_min_loop (child : OthelloBoard → Int → Int → Int) (curboard : OthelloBoard)
    (alpha : Int) : List Point → Int → Int → Int
  | [], minheur, _ => minheur
  | p :: rest, minheur, beta =>
    let newboard := make_newboard curboard p
    let curheur := child newboard alpha beta
    let curheur := if is_corner p then curheur - 50000 else curheur
    let minheur := min minheur curheur
    let beta := min beta curheur
    nocut_min_loop child curboard alpha rest minheur beta

/-- The unpruned traversal: `minimax` with both cut-offs removed, everything else (corner
penalty, maximizing-side bookkeeping) kept. -/
def minimax_nocut (curboard : OthelloBoard) : Nat → Int → Int → Int → Int
  | 0, _, _, _ => find_heur curboard
  | depth + 1, alpha, beta, curplayer =>
    if curboard.done then find_heur curboard
    else if curboard.cur_player = curplayer then
      nocut_max_loop (fun newboard a b => minimax_nocut newboard depth a b curplayer)
        curboard beta (get_valid_spots curboard) (-10000000) alpha
    else
      nocut_min_loop (fun newboard a b => minimax_nocut newboard depth a b (3 - curplayer))
        curboard alpha (get_valid_spots curboard) 10000000 beta

/-! ## Move selector -/

/-- The board `curboard` of `write_valid_spot`: a fresh board whose `board` and `cur_player`
are overwritten with the globals `board_orgi` and `player`. -/
def write_valid_spot_curboard (player : Int) (board_orgi : Int → Int → Int) : OthelloBoard :=
  let curboard := reset
  let curboard := { curboard with board := board_orgi }
  { curboard with cur_player := player }

/-- The value `cur_heur` of iteration `i` of the loop of `write_valid_spot`; `none` when
`newboard.get_valid_spots()[i]` is out of range (undefined behaviour in C++). -/
def write_valid_spot_score (player : Int) (board_orgi : Int → Int → Int) (i : Nat) :
    Option Int :=
  let curboard := write_valid_spot_curboard player board_orgi
  let newboard := reset
  let newboard := { newboard with board := curboard.board }
  let newboard := { newboard with cur_player := curboard.cur_player }
  match (get_valid_spots newboard)[i]? with
  | none => none
  | some p =>
    let newboard := (put_disc newboard p).1
    some (minimax newboard 3 (-10000000) 10000000 player)

/-- One iteration of the loop of `write_valid_spot` on the pair `(index, heur)`; `index` is
`none` while the C++ variable is still unassigned. -/
def write_valid_spot_step (player : Int) (board_orgi : Int → Int → Int)
    (st : Option Nat × Int) (i : Nat) : Option (Option Nat × Int) :=
  match write_valid_spot_score player board_orgi i with
  | none => none
  | some cur_heur =>
    if cur_heur > st.2 then some (some i, cur_heur) else some st

/-- The loop of `write_valid_spot`: the final `(index, heur)`. -/
def write_valid_spot_loop (player : Int) (board_orgi : Int → Int → Int)
    (n_valid_spots : Nat) : Option (Option Nat × Int) :=
  (List.range n_valid_spots).foldlM (write_valid_spot_step player board_orgi) (none, 0)

/-- Source `write_valid_spot`: the point written to the output; `none` when the C++ code reads an
out-of-range element or the unassigned `index`. -/
def write_valid_spot (player : Int) (board_orgi : Int → Int → Int)
    (next_valid_spots_orgi : List Point) : Option Point :=
  match write_valid_spot_loop player board_orgi next_valid_spots_orgi.length with
  | none => none
  | some (none, _) => none
  | some (some index, _) => next_valid_spots_orgi[index]?

/-- A grid given by its rows (used for concrete positions); cells outside the rows are 0. -/
def grid_of_rows (rows : List (List Int)) : Int → Int → Int :=
  fun i j => if 0 ≤ i ∧ 0 ≤ j then (rows.getD i.toNat []).getD j.toNat 0 else 0

/-! ## Vocabulary of the specification -/

/-- The cell `k` steps away from `c` in direction `dir`. -/
def ray (c dir : Point) (k : Nat) : Point := ⟨c.x + k * dir.x, c.y + k * dir.y⟩

/-- Every cell of the 8×8 grid is Empty, Black or White. -/
def valid_grid (board : Int → Int → Int) : Prop :=
  ∀ q, is_spot_on_board q = true →
    get_disc board q = EMPTY ∨ get_disc board q = BLACK ∨ get_disc board q = WHITE

/-- A board as the rules know it: grid cells in {0, 1, 2}, side to move in {1, 2}. -/
def well_formed (b : OthelloBoard) : Prop :=
  valid_grid b.board ∧ (b.cur_player = BLACK ∨ b.cur_player = WHITE)

/-- What a direction walk started at `p` meets: `n` cells on which the loop continues
(on the board, not Empty, not a disc of `cur`), then an on-board disc of `cur`. -/
def walk_ends (board : Int → Int → Int) (cur : Int) (dir p : Point) (n : Nat) : Prop :=
  (∀ j, j < n → is_spot_on_board (ray p dir j) = true ∧
    get_disc board (ray p dir j) ≠ EMPTY ∧ get_disc board (ray p dir j) ≠ cur) ∧
  is_spot_on_board (ray p dir n) = true ∧ get_disc board (ray p dir n) ≠ EMPTY ∧
    get_disc board (ray p dir n) = cur

/-- The capture condition for the mover `m` at `c` in direction `dir`: the cells
`c + dir, …, c + (n-1)·dir` (at least one) hold discs of the opponent `3 - m`, and the next
cell `c + n·dir` is on the board and holds a disc of `m`. -/
def run_captured (board : Int → Int → Int) (m : Int) (c dir : Point) (n : Nat) : Prop :=
  2 ≤ n ∧ (∀ j, 1 ≤ j → j < n → is_disc_at board (ray c dir j) (3 - m) = true) ∧
    is_disc_at board (ray c dir n) m = true

/-- The cell `q` lies in an opponent run that starts next to `c` in one of the eight
directions and is ended by a disc of the mover `m`. -/
def in_captured_run (board : Int → Int → Int) (m : Int) (c q : Point) : Prop :=
  ∃ dir ∈ directions, ∃ n k, run_captured board m c dir n ∧ 1 ≤ k ∧ k < n ∧ q = ray c dir k

/-- The legal moves of `player` on the grid `board`: `get_valid_spots` reads nothing but the
grid and the side to move. -/
def legal_moves (board : Int → Int → Int) (player : Int) : List Point :=
  get_valid_spots
    { board := board, next_valid_spots := [], disc_count := fun _ => 0,
      cur_player := player, done := false, winner := 0 }

/-- A position in which White, to move, can take the corner (7,0) and thereby leave Black
without a move: White at (5,0), Black at (4,0), (5,1), (6,0). -/
def corner_pass_board : OthelloBoard :=
  let board : Int → Int → Int := fun _ _ => EMPTY
  let board := set_disc board ⟨5, 0⟩ WHITE
  let board := set_disc board ⟨4, 0⟩ BLACK
  let board := set_disc board ⟨5, 1⟩ BLACK
  let board := set_disc board ⟨6, 0⟩ BLACK
  { reset with board := board, cur_player := WHITE }

/-- A position one move from the end: only (0,0) is Empty, White is at (0,1), every other
cell is Black, Black to move. -/
def last_move_board : OthelloBoard :=
  let board : Int → Int → Int := fun _ _ => BLACK
  let board := set_disc board ⟨0, 0⟩ EMPTY
  let board := set_disc board ⟨0, 1⟩ WHITE
  { reset with board := board, cur_player := BLACK }

/-- A grid with two Empty cells, (0,0) and (1,0), White at (0,5) and (1,1), Black
everywhere else.  Black has exactly the two moves (0,0) and (1,0). -/
def two_moves_grid : Int → Int → Int :=
  let board : Int → Int → Int := fun _ _ => BLACK
  let board := set_disc board ⟨0, 0⟩ EMPTY
  let board := set_disc board ⟨1, 0⟩ EMPTY
  let board := set_disc board ⟨1, 1⟩ WHITE
  set_disc board ⟨0, 5⟩ WHITE

/-- A grid on which Black has the single move (7,5): White at (1,5), (4,4), (6,5), (6,6),
Black at (5,7), every other cell Empty. -/
def single_move_grid : Int → Int → Int :=
  let board : Int → Int → Int := fun _ _ => EMPTY
  let board := set_disc board ⟨1, 5⟩ WHITE
  let board := set_disc board ⟨4, 4⟩ WHITE
  let board := set_disc board ⟨6, 5⟩ WHITE
  let board := set_disc board ⟨6, 6⟩ WHITE
  set_disc board ⟨5, 7⟩ BLACK

/-- Row-major order on cells: by row, then by column. -/
def row_major_lt (p q : Point) : Prop := p.x < q.x ∨ (p.x = q.x ∧ p.y < q.y)

instance : DecidableRel row_major_lt := fun p q => by unfold row_major_lt; infer_instance

/-! ## Vocabulary of the invariants -/

/-- Boards reachable from `reset()` by a sequence of `put_disc` calls, legal or not, at
on-board points. -/
inductive Reachable : OthelloBoard → Prop
  | init : Reachable reset
  | step (b : OthelloBoard) (p : Point) :
      Reachable b → is_spot_on_board p = true → Reachable (put_disc b p).1

/-- The number of cells of the 8×8 grid that hold `disc`. -/
def count_discs (board : Int → Int → Int) (disc : Int) : Int :=
  (board_cells.countP (fun q => get_disc board q == disc) : Nat)

/-- The sum of the three tallies. -/
def tally_sum (b : OthelloBoard) : Int :=
  b.disc_count EMPTY + b.disc_count BLACK + b.disc_count WHITE

/-- The board `newboard` of the search loops just before `newboard.put_disc(p)`: a fresh
board whose `board` and `cur_player` are overwritten with those of `curboard`. -/
def newboard_seed (curboard : OthelloBoard) : OthelloBoard :=
  let newboard := reset
  let newboard := { newboard with board := curboard.board }
  { newboard with cur_player := curboard.cur_player }

/-- The maximizing side that `minimax` hands to its recursive calls: `curplayer` in the
maximizing branch, `3 - curplayer` in the minimizing branch. -/
def minimax_child_side (curboard : OthelloBoard) (curplayer : Int) : Int :=
  if curboard.cur_player = curplayer then curplayer else 3 - curplayer

/-! ## The code with checked grid accesses

The same functions once more, with every access `board[p.x][p.y]` checked: a read or write
whose index is outside `0..7` ends the computation with `Fault.out_of_range`, and a direction
walk that uses up its budget of 8 loop tests ends it with `Fault.out_of_steps`.  The order of
the tests is that of the source: `is_disc_at` tests `is_spot_on_board` before it reads, the
`while` condition is `is_spot_on_board(p) && get_disc(p) != EMPTY` with `&&` evaluated left
to right, `is_spot_valid` and `put_disc` read and write the cell they are given without a
test. -/

/-- How a checked computation can stop short. -/
inductive Fault where
  | out_of_range
  | out_of_steps
deriving DecidableEq, Repr

/-- Source `get_disc` as a checked read of `board[p.x][p.y]`. -/
def get_disc_checked (board : Int → Int → Int) (p : Point) : Except Fault Int :=
  if 0 ≤ p.x ∧ p.x < 8 ∧ 0 ≤ p.y ∧ p.y < 8 then .ok (board p.x p.y)
  else .error Fault.out_of_range

/-- Source `set_disc` as a checked write of `board[p.x][p.y]`. -/
def set_disc_checked (board : Int → Int → Int) (p : Point) (disc : Int) :
    Except Fault (Int → Int → Int) :=
  if 0 ≤ p.x ∧ p.x < 8 ∧ 0 ≤ p.y ∧ p.y < 8 then
    .ok (fun i j => if i = p.x ∧ j = p.y then disc else board i j)
  else .error Fault.out_of_range

/-- Source `is_disc_at` with the checked read. -/
def is_disc_at_checked (board : Int → Int → Int) (p : Point) (disc : Int) :
    Except Fault Bool :=
  if !is_spot_on_board p then .ok false
  else
    match get_disc_checked board p with
    | .error e => .error e
    | .ok d => if d != disc then .ok false else .ok true

/-- The inner `while` loop of `is_spot_valid` with checked reads; `ok true` is the
`return true`, `ok false` the loop running to its end. -/
def is_spot_valid_scan_checked (board : Int → Int → Int) (cur_player : Int) (dir : Point) :
    Nat → Point → Except Fault Bool
  | 0, _ => .error Fault.out_of_steps
  | fuel + 1, p =>
    if is_spot_on_board p then
      match get_disc_checked board p with
      | .error e => .error e
      | .ok d =>
        if d != EMPTY then
          match is_disc_at_checked board p cur_player with
          | .error e => .error e
          | .ok true => .ok true
          | .ok false => is_spot_valid_scan_checked board cur_player dir fuel (p + dir)
        else .ok false
    else .ok false

/-- The `for (Point dir : directions)` loop of `is_spot_valid` with checked reads. -/
def is_spot_valid_dirs_checked (board : Int → Int → Int) (cur_player : Int)
    (center : Point) : List Point → Except Fault Bool
  | [] => .ok false
  | dir :: rest =>
    let p := center + dir
    match is_disc_at_checked board p (get_next_player cur_player) with
    | .error e => .error e
    | .ok false => is_spot_valid_dirs_checked board cur_player center rest
    | .ok true =>
      match is_spot_valid_scan_checked board cur_player dir 8 (p + dir) with
      | .error e => .error e
      | .ok true => .ok true
      | .ok false => is_spot_valid_dirs_checked board cur_player center rest

/-- Source `is_spot_valid` with checked reads; the first read, of `center` itself, comes
before any bounds test. -/
def is_spot_valid_checked (b : OthelloBoard) (center : Point) : Except Fault Bool :=
  match get_disc_checked b.board center with
  | .error e => .error e
  | .ok d =>
    if d != EMPTY then .ok false
    else is_spot_valid_dirs_checked b.board b.cur_player center directions

/-- The inner `while` loop of `flip_discs` with checked reads; `ok (some ds)`: a disc of
`cur_player` ended the run `ds`; `ok none`: the loop ran to its end without one. -/
def flip_discs_scan_checked (board : Int → Int → Int) (cur_player : Int) (dir : Point) :
    Nat → Point → List Point → Except Fault (Option (List Point))
  | 0, _, _ => .error Fault.out_of_steps
  | fuel + 1, p, discs =>
    if is_spot_on_board p then
      match get_disc_checked board p with
      | .error e => .error e
      | .ok d =>
        if d != EMPTY then
          match is_disc_at_checked board p cur_player with
          | .error e => .error e
          | .ok true => .ok (some discs)
          | .ok false =>
            flip_discs_scan_checked board cur_player dir fuel (p + dir) (discs ++ [p])
        else .ok none
    else .ok none

/-- The loop `for (Point s : discs) set_disc(s, cur_player);` with checked writes. -/
def set_discs_checked (cur_player : Int) :
    List Point → (Int → Int → Int) → Except Fault (Int → Int → Int)
  | [], board => .ok board
  | s :: rest, board =>
    match set_disc_checked board s cur_player with
    | .error e => .error e
    | .ok board => set_discs_checked cur_player rest board

/-- The `for (Point dir : directions)` loop of `flip_discs` with checked accesses. -/
def flip_discs_dirs_checked (cur_player : Int) (center : Point) :
    List Point → (Int → Int → Int) × (Int → Int) →
      Except Fault ((Int → Int → Int) × (Int → Int))
  | [], st => .ok st
  | dir :: rest, st =>
    let p := center + dir
    match is_disc_at_checked st.1 p (get_next_player cur_player) with
    | .error e => .error e
    | .ok false => flip_discs_dirs_checked cur_player center rest st
    | .ok true =>
      match flip_discs_scan_checked st.1 cur_player dir 8 (p + dir) [p] with
      | .error e => .error e
      | .ok none => flip_discs_dirs_checked cur_player center rest st
      | .ok (some discs) =>
        match set_discs_checked cur_player discs st.1 with
        | .error e => .error e
        | .ok board =>
          let dc := disc_count_add st.2 cur_player discs.length
          let dc := disc_count_add dc (get_next_player cur_player) (-(discs.length : Int))
          flip_discs_dirs_checked cur_player center rest (board, dc)

/-- Source `flip_discs` with checked accesses. -/
def flip_discs_checked (b : OthelloBoard) (center : Point) : Except Fault OthelloBoard :=
  match flip_discs_dirs_checked b.cur_player center directions (b.board, b.disc_count) with
  | .error e => .error e
  | .ok st => .ok { b with board := st.1, disc_count := st.2 }

/-- The two nested loops of `get_valid_spots` over the remaining cells, with the read
`board[i][j]` and the reads of `is_spot_valid` checked. -/
def get_valid_spots_cells_checked (b : OthelloBoard) :
    List Point → Except Fault (List Point)
  | [] => .ok []
  | p :: rest =>
    match get_disc_checked b.board p with
    | .error e => .error e
    | .ok d =>
      if d != EMPTY then get_valid_spots_cells_checked b rest
      else
        match is_spot_valid_checked b p with
        | .error e => .error e
        | .ok v =>
          match get_valid_spots_cells_checked b rest with
          | .error e => .error e
          | .ok valid_spots => .ok (if v then p :: valid_spots else valid_spots)

/-- Source `get_valid_spots` with checked reads. -/
def get_valid_spots_checked (b : OthelloBoard) : Except Fault (List Point) :=
  get_valid_spots_cells_checked b board_cells

/-- The end of `put_disc`, from `// Give control to the other player.` on, with the reads
of the two `get_valid_spots` calls checked. -/
def put_disc_finish_checked (b : OthelloBoard) : Except Fault (OthelloBoard × Bool) :=
  let b := { b with cur_player := get_next_player b.cur_player }
  match get_valid_spots_checked b with
  | .error e => .error e
  | .ok spots =>
    let b := { b with next_valid_spots := spots }
    if b.next_valid_spots.length = 0 then
      let b := { b with cur_player := get_next_player b.cur_player }
      match get_valid_spots_checked b with
      | .error e => .error e
      | .ok spots =>
        let b := { b with next_valid_spots := spots }
        if b.next_valid_spots.length = 0 then
          let b := { b with done := true }
          let white_discs := b.disc_count WHITE
          let black_discs := b.disc_count BLACK
          if white_discs = black_discs then .ok ({ b with winner := EMPTY }, true)
          else if black_discs > white_discs then .ok ({ b with winner := BLACK }, true)
          else .ok ({ b with winner := WHITE }, true)
        else .ok (b, true)
    else .ok (b, true)

/-- Source `put_disc` with checked accesses: `is_spot_valid(p)` reads and `set_disc(p, …)`
writes the cell `p` without a bounds test. -/
def put_disc_checked (b : OthelloBoard) (p : Point) : Except Fault (OthelloBoard × Bool) :=
  match is_spot_valid_checked b p with
  | .error e => .error e
  | .ok false => .ok ({ b with winner := get_next_player b.cur_player, done := true }, false)
  | .ok true =>
    match set_disc_checked b.board p b.cur_player with
    | .error e => .error e
    | .ok board =>
      let b := { b with board := board }
      let b := { b with disc_count := disc_count_add b.disc_count b.cur_player 1 }
      let b := { b with disc_count := disc_count_add b.disc_count EMPTY (-1) }
      match flip_discs_checked b p with
      | .error e => .error e
      | .ok b => put_disc_finish_checked b

/-! ## Lemmas on the direction walks -/

theorem add_x (a b : Point) : (a + b).x = a.x + b.x := rfl
theorem add_y (a b : Point) : (a + b).y = a.y + b.y := rfl

theorem on_board_iff (p : Point) :
    is_spot_on_board p = true ↔ 0 ≤ p.x ∧ p.x < 8 ∧ 0 ≤ p.y ∧ p.y < 8 := by
  simp [is_spot_on_board, SIZE, and_assoc]

theorem is_disc_at_iff (g : Int → Int → Int) (p : Point) (d : Int) :
    is_disc_at g p d = true ↔ is_spot_on_board p = true ∧ get_disc g p = d := by
  unfold is_disc_at
  by_cases h : is_spot_on_board p = true <;> by_cases h2 : get_disc g p = d <;> simp [h, h2]

theorem ray_zero (c dir : Point) : ray c dir 0 = c := by
  ext <;> simp [ray]

theorem ray_one (c dir : Point) : ray c dir 1 = c + dir := by
  ext <;> simp [ray, add_x, add_y]

theorem ray_add (c dir : Point) (k : Nat) : ray (c + dir) dir k = ray c dir (k + 1) := by
  ext <;> simp [ray, add_x, add_y] <;> ring

theorem ray_add2 (c dir : Point) (k : Nat) :
    ray (c + dir + dir) dir k = ray c dir (k + 2) := by
  rw [ray_add, ray_add]

/-- One more step of a walk: a continuing cell in front of a walk of length `n`. -/
theorem walk_ends_succ (g : Int → Int → Int) (cur : Int) (dir p : Point) (n : Nat) :
    walk_ends g cur dir p (n + 1) ↔
      (is_spot_on_board p = true ∧ get_disc g p ≠ EMPTY ∧ get_disc g p ≠ cur) ∧
        walk_ends g cur dir (p + dir) n := by
  unfold walk_ends
  simp only [ray_add]
  constructor
  · rintro ⟨hall, hstop⟩
    refine ⟨by simpa [ray_zero] using hall 0 (by omega), ?_, hstop⟩
    intro j hj
    exact hall (j + 1) (by omega)
  · rintro ⟨h0, hall, hstop⟩
    refine ⟨?_, hstop⟩
    intro j hj
    cases j with
    | zero => simpa [ray_zero] using h0
    | succ j => exact hall j (by omega)

theorem walk_ends_zero (g : Int → Int → Int) (cur : Int) (dir p : Point) :
    walk_ends g cur dir p 0 ↔
      is_spot_on_board p = true ∧ get_disc g p ≠ EMPTY ∧ get_disc g p = cur := by
  unfold walk_ends
  simp [ray_zero]

theorem scan_true_iff (g : Int → Int → Int) (cur : Int) (dir : Point) :
    ∀ (fuel : Nat) (p : Point),
      is_spot_valid_scan g cur dir fuel p = some true ↔
        ∃ n, n < fuel ∧ walk_ends g cur dir p n := by
  intro fuel
  induction fuel with
  | zero => intro p; simp [is_spot_valid_scan]
  | succ fuel ih =>
    intro p
    unfold is_spot_valid_scan
    by_cases hA : (is_spot_on_board p && get_disc g p != EMPTY) = true
    · have hA2 : is_spot_on_board p = true ∧ get_disc g p ≠ EMPTY := by simpa using hA
      rw [if_pos hA]
      by_cases hB : is_disc_at g p cur = true
      · rw [if_pos hB]
        have hB2 := (is_disc_at_iff g p cur).1 hB
        simp only [true_iff]
        exact ⟨0, by omega, (walk_ends_zero _ _ _ _).2 ⟨hA2.1, hA2.2, hB2.2⟩⟩
      · rw [if_neg hB, ih (p + dir)]
        have hB2 : get_disc g p ≠ cur := fun h => hB ((is_disc_at_iff g p cur).2 ⟨hA2.1, h⟩)
        constructor
        · rintro ⟨n, hn, hw⟩
          exact ⟨n + 1, by omega, (walk_ends_succ _ _ _ _ _).2 ⟨⟨hA2.1, hA2.2, hB2⟩, hw⟩⟩
        · rintro ⟨n, hn, hw⟩
          cases n with
          | zero => exact absurd ((walk_ends_zero _ _ _ _).1 hw).2.2 hB2
          | succ n => exact ⟨n, by omega, ((walk_ends_succ _ _ _ _ _).1 hw).2⟩
    · rw [if_neg hA]
      have hA2 : ¬ (is_spot_on_board p = true ∧ get_disc g p ≠ EMPTY) := by simpa using hA
      simp only [Option.some.injEq, Bool.false_eq_true, false_iff]
      rintro ⟨n, hn, hw⟩
      cases n with
      | zero =>
        have := (walk_ends_zero _ _ _ _).1 hw
        exact hA2 ⟨this.1, this.2.1⟩
      | succ n =>
        have := ((walk_ends_succ _ _ _ _ _).1 hw).1
        exact hA2 ⟨this.1, this.2.1⟩

theorem scan_none (g : Int → Int → Int) (cur : Int) (dir : Point) :
    ∀ (fuel : Nat) (p : Point),
      is_spot_valid_scan g cur dir fuel p = none →
        ∀ j, j < fuel → is_spot_on_board (ray p dir j) = true := by
  intro fuel
  induction fuel with
  | zero => intro p _ j hj; omega
  | succ fuel ih =>
    intro p h j hj
    unfold is_spot_valid_scan at h
    by_cases hA : (is_spot_on_board p && get_disc g p != EMPTY) = true
    · have hA2 : is_spot_on_board p = true ∧ get_disc g p ≠ EMPTY := by simpa using hA
      rw [if_pos hA] at h
      by_cases hB : is_disc_at g p cur = true
      · rw [if_pos hB] at h; cases h
      · rw [if_neg hB] at h
        cases j with
        | zero => rw [ray_zero]; exact hA2.1
        | succ j =>
          have := ih (p + dir) h j (by omega)
          simpa [ray_add] using this
    · rw [if_neg hA] at h; cases h

theorem flip_scan_some_iff (g : Int → Int → Int) (cur : Int) (dir : Point) :
    ∀ (fuel : Nat) (p : Point) (discs ds : List Point),
      flip_discs_scan g cur dir fuel p discs = some (some ds) ↔
        ∃ n, n < fuel ∧ walk_ends g cur dir p n ∧
          ds = discs ++ (List.range n).map (fun j => ray p dir j) := by
  intro fuel
  induction fuel with
  | zero => intro p discs ds; simp [flip_discs_scan]
  | succ fuel ih =>
    intro p discs ds
    unfold flip_discs_scan
    by_cases hA : (is_spot_on_board p && get_disc g p != EMPTY) = true
    · have hA2 : is_spot_on_board p = true ∧ get_disc g p ≠ EMPTY := by simpa using hA
      rw [if_pos hA]
      by_cases hB : is_disc_at g p cur = true
      · rw [if_pos hB]
        have hB2 := (is_disc_at_iff g p cur).1 hB
        have hB3 : ¬ (get_disc g p ≠ cur) := fun h => h hB2.2
        constructor
        · intro h
          simp only [Option.some.injEq] at h
          exact ⟨0, by omega, (walk_ends_zero _ _ _ _).2 ⟨hA2.1, hA2.2, hB2.2⟩, by simp [h]⟩
        · rintro ⟨n, hn, hw, hds⟩
          cases n with
          | zero => simp [hds]
          | succ n => exact absurd ((walk_ends_succ _ _ _ _ _).1 hw).1.2.2 hB3
      · rw [if_neg hB, ih (p + dir)]
        have hB2 : get_disc g p ≠ cur := fun h => hB ((is_disc_at_iff g p cur).2 ⟨hA2.1, h⟩)
        have hlist : ∀ n, discs ++ [p] ++ (List.range n).map (fun j => ray (p + dir) dir j) =
            discs ++ (List.range (n + 1)).map (fun j => ray p dir j) := by
          intro n
          rw [List.range_succ_eq_map]
          simp [ray_zero, ray_add, Function.comp_def]
        constructor
        · rintro ⟨n, hn, hw, hds⟩
          exact ⟨n + 1, by omega, (walk_ends_succ _ _ _ _ _).2 ⟨⟨hA2.1, hA2.2, hB2⟩, hw⟩,
            by rw [hds, hlist]⟩
        · rintro ⟨n, hn, hw, hds⟩
          cases n with
          | zero => exact absurd ((walk_ends_zero _ _ _ _).1 hw).2.2 hB2
          | succ n =>
            exact ⟨n, by omega, ((walk_ends_succ _ _ _ _ _).1 hw).2, by rw [hds, hlist]⟩
    · rw [if_neg hA]
      have hA2 : ¬ (is_spot_on_board p = true ∧ get_disc g p ≠ EMPTY) := by simpa using hA
      constructor
      · intro h; simp at h
      rintro ⟨n, hn, hw, _⟩
      cases n with
      | zero =>
        have := (walk_ends_zero _ _ _ _).1 hw
        exact absurd ⟨this.1, this.2.1⟩ hA2
      | succ n =>
        have := ((walk_ends_succ _ _ _ _ _).1 hw).1
        exact absurd ⟨this.1, this.2.1⟩ hA2

theorem flip_scan_none (g : Int → Int → Int) (cur : Int) (dir : Point) :
    ∀ (fuel : Nat) (p : Point) (discs : List Point),
      flip_discs_scan g cur dir fuel p discs = none →
        ∀ j, j < fuel → is_spot_on_board (ray p dir j) = true := by
  intro fuel
  induction fuel with
  | zero => intro p _ _ j hj; omega
  | succ fuel ih =>
    intro p discs h j hj
    unfold flip_discs_scan at h
    by_cases hA : (is_spot_on_board p && get_disc g p != EMPTY) = true
    · have hA2 : is_spot_on_board p = true ∧ get_disc g p ≠ EMPTY := by simpa using hA
      rw [if_pos hA] at h
      by_cases hB : is_disc_at g p cur = true
      · rw [if_pos hB] at h; cases h
      · rw [if_neg hB] at h
        cases j with
        | zero => rw [ray_zero]; exact hA2.1
        | succ j =>
          have := ih (p + dir) _ h j (by omega)
          simpa [ray_add] using this
    · rw [if_neg hA] at h; cases h

theorem ray_span (dir : Point) (hd : dir ∈ directions) (p : Point) (a b : Nat)
    (ha : is_spot_on_board (ray p dir a) = true) (hb : is_spot_on_board (ray p dir b) = true) :
    a < b + 8 := by
  rw [on_board_iff] at ha hb
  simp only [directions, List.mem_cons, List.mem_singleton, List.not_mem_nil, or_false] at hd
  rcases hd with rfl | rfl | rfl | rfl | rfl | rfl | rfl | rfl <;>
    simp only [ray] at ha hb <;> omega

/-- The budget of 8 steps is never exhausted by the walk of `is_spot_valid`: it starts two
cells from the centre, one cell beyond an on-board cell. -/
theorem is_spot_valid_scan_fuel (g : Int → Int → Int) (cur : Int) (dir : Point)
    (hd : dir ∈ directions) (c : Point) (h1 : is_spot_on_board (c + dir) = true) :
    is_spot_valid_scan g cur dir 8 (c + dir + dir) ≠ none := by
  intro h
  have h7 := scan_none g cur dir 8 (c + dir + dir) h 7 (by omega)
  rw [ray_add2] at h7
  rw [← ray_one] at h1
  have := ray_span dir hd c 9 1 h7 h1
  omega

/-- The budget of 8 steps is never exhausted by the walk of `flip_discs` either. -/
theorem flip_discs_scan_fuel (g : Int → Int → Int) (cur : Int) (dir : Point)
    (hd : dir ∈ directions) (c : Point) (h1 : is_spot_on_board (c + dir) = true)
    (discs : List Point) :
    flip_discs_scan g cur dir 8 (c + dir + dir) discs ≠ none := by
  intro h
  have h7 := flip_scan_none g cur dir 8 (c + dir + dir) discs h 7 (by omega)
  rw [ray_add2] at h7
  rw [← ray_one] at h1
  have := ray_span dir hd c 9 1 h7 h1
  omega


/-- A walk of length `n` behind an opponent disc at `c + dir` is the capture condition with
run end `n + 2`. -/
theorem walk_run_iff (g : Int → Int → Int) (cur : Int) (hg : valid_grid g)
    (hcur : cur = BLACK ∨ cur = WHITE) (c dir : Point) (n : Nat) :
    (is_disc_at g (c + dir) (3 - cur) = true ∧ walk_ends g cur dir (c + dir + dir) n) ↔
      run_captured g cur c dir (n + 2) := by
  unfold valid_grid at hg
  simp only [EMPTY, BLACK, WHITE] at hg hcur
  unfold walk_ends run_captured
  simp only [ray_add2, is_disc_at_iff, EMPTY]
  constructor
  · rintro ⟨h1, hall, hon, hne, hc⟩
    refine ⟨by omega, ?_, hon, hc⟩
    intro j hj1 hj2
    rcases Nat.lt_or_ge j 2 with hlt | hge
    · have : j = 1 := by omega
      subst this
      rw [ray_one]; exact h1
    · obtain ⟨k, rfl⟩ : ∃ k, j = k + 2 := ⟨j - 2, by omega⟩
      have := hall k (by omega)
      refine ⟨this.1, ?_⟩
      have hv := hg _ this.1
      have h2 := this.2.1
      have h3 := this.2.2
      omega
  · rintro ⟨_, hall, hon, hc⟩
    have h1 := hall 1 (by omega) (by omega)
    rw [ray_one] at h1
    refine ⟨h1, ?_, hon, by rw [hc]; omega, hc⟩
    intro j hj
    have := hall (j + 2) (by omega) (by omega)
    refine ⟨this.1, ?_, ?_⟩
    · rw [this.2]; omega
    · rw [this.2]; omega

/-- A captured run fits on the board: its end is at most 8 cells from the centre. -/
theorem run_captured_lt (g : Int → Int → Int) (cur : Int) (c dir : Point)
    (hd : dir ∈ directions) (n : Nat) (h : run_captured g cur c dir n) : 2 ≤ n ∧ n < 9 := by
  obtain ⟨h2, hall, hstop⟩ := h
  have h1 := ((is_disc_at_iff _ _ _).1 (hall 1 (by omega) (by omega))).1
  have hn := ((is_disc_at_iff _ _ _).1 hstop).1
  exact ⟨h2, ray_span dir hd c n 1 hn h1⟩

/-- In one direction there is at most one captured run. -/
theorem run_captured_unique (g : Int → Int → Int) (cur : Int) (c dir : Point) (n1 n2 : Nat)
    (h1 : run_captured g cur c dir n1) (h2 : run_captured g cur c dir n2) : n1 = n2 := by
  obtain ⟨ha, halla, hstopa⟩ := h1
  obtain ⟨hb, hallb, hstopb⟩ := h2
  rw [is_disc_at_iff] at hstopa hstopb
  rcases Nat.lt_trichotomy n1 n2 with hlt | heq | hgt
  · have := ((is_disc_at_iff _ _ _).1 (hallb n1 (by omega) hlt)).2
    rw [hstopa.2] at this; omega
  · exact heq
  · have := ((is_disc_at_iff _ _ _).1 (halla n2 (by omega) hgt)).2
    rw [hstopb.2] at this; omega

theorem is_spot_valid_dirs_iff (g : Int → Int → Int) (cur : Int) (c : Point) :
    ∀ ds : List Point, (∀ d ∈ ds, d ∈ directions) →
      (is_spot_valid_dirs g cur c ds = true ↔
        ∃ dir ∈ ds, is_disc_at g (c + dir) (3 - cur) = true ∧
          is_spot_valid_scan g cur dir 8 (c + dir + dir) = some true) := by
  intro ds
  induction ds with
  | nil => intro _; simp [is_spot_valid_dirs]
  | cons d rest ih =>
    intro hds
    have ih2 := ih (fun x hx => hds x (List.mem_cons_of_mem _ hx))
    unfold is_spot_valid_dirs
    simp only [get_next_player]
    by_cases hA : is_disc_at g (c + d) (3 - cur) = true
    · have hon := ((is_disc_at_iff _ _ _).1 hA).1
      have hfuel := is_spot_valid_scan_fuel g cur d (hds d (List.mem_cons_self _ _)) c hon
      simp only [hA, Bool.not_true, Bool.false_eq_true, if_false]
      cases hs : is_spot_valid_scan g cur d 8 (c + d + d) with
      | none => exact absurd hs hfuel
      | some r =>
        cases r with
        | true => simp [hA, hs]
        | false =>
          simp only [ih2, List.mem_cons, exists_eq_or_imp, hA, hs, true_and]
          simp
    · have hA2 : is_disc_at g (c + d) (3 - cur) = false := by simpa using hA
      simp only [hA2, Bool.not_false, if_true, ih2, List.mem_cons, exists_eq_or_imp]
      simp

theorem scan_run_iff (g : Int → Int → Int) (cur : Int) (hg : valid_grid g)
    (hcur : cur = BLACK ∨ cur = WHITE) (c dir : Point) (hd : dir ∈ directions) :
    (is_disc_at g (c + dir) (3 - cur) = true ∧
      is_spot_valid_scan g cur dir 8 (c + dir + dir) = some true) ↔
    ∃ n, run_captured g cur c dir n := by
  rw [scan_true_iff]
  constructor
  · rintro ⟨h1, n, _, hw⟩
    exact ⟨n + 2, (walk_run_iff g cur hg hcur c dir n).1 ⟨h1, hw⟩⟩
  · rintro ⟨n, hrun⟩
    have hlt := run_captured_lt g cur c dir hd n hrun
    obtain ⟨k, rfl⟩ : ∃ k, n = k + 2 := ⟨n - 2, by omega⟩
    have := (walk_run_iff g cur hg hcur c dir k).2 hrun
    exact ⟨this.1, k, by omega, this.2⟩

/-- What `is_spot_valid` decides on a well-formed board. -/
theorem is_spot_valid_iff (b : OthelloBoard) (hb : well_formed b) (c : Point) :
    is_spot_valid b c = true ↔
      get_disc b.board c = EMPTY ∧
        ∃ dir ∈ directions, ∃ n, run_captured b.board b.cur_player c dir n := by
  unfold is_spot_valid
  by_cases h0 : get_disc b.board c = EMPTY
  · simp only [h0, bne_self_eq_false, Bool.false_eq_true, if_false, true_and]
    rw [is_spot_valid_dirs_iff _ _ _ _ (fun d hd => hd)]
    constructor
    · rintro ⟨dir, hd, h⟩
      exact ⟨dir, hd, (scan_run_iff _ _ hb.1 hb.2 c dir hd).1 h⟩
    · rintro ⟨dir, hd, h⟩
      exact ⟨dir, hd, (scan_run_iff _ _ hb.1 hb.2 c dir hd).2 h⟩
  · simp [h0]

theorem mem_board_cells (c : Point) : c ∈ board_cells ↔ is_spot_on_board c = true := by
  rw [on_board_iff]
  unfold board_cells
  simp only [List.mem_flatMap, List.mem_range, List.mem_map]
  constructor
  · rintro ⟨i, hi, j, hj, rfl⟩
    simp only
    omega
  · rintro ⟨h1, h2, h3, h4⟩
    refine ⟨c.x.toNat, by omega, c.y.toNat, by omega, ?_⟩
    ext <;> simp <;> omega

theorem mem_get_valid_spots (b : OthelloBoard) (c : Point) :
    c ∈ get_valid_spots b ↔ is_spot_on_board c = true ∧ is_spot_valid b c = true := by
  unfold get_valid_spots
  rw [List.mem_filter, mem_board_cells]
  by_cases h0 : get_disc b.board c = EMPTY
  · simp [h0]
  · have : is_spot_valid b c = false := by simp [is_spot_valid, h0]
    simp [h0, this]

set_option maxRecDepth 100000 in
theorem board_cells_sorted : board_cells.Pairwise row_major_lt := by decide

theorem reset_board (i j : Int) :
    reset.board i j =
      if (i = 3 ∧ j = 4) ∨ (i = 4 ∧ j = 3) then BLACK
      else if (i = 3 ∧ j = 3) ∨ (i = 4 ∧ j = 4) then WHITE
      else EMPTY := by
  simp only [reset, set_disc, EMPTY, BLACK, WHITE]
  split_ifs <;> first | rfl | omega

theorem reset_well_formed : well_formed reset := by
  refine ⟨?_, Or.inl rfl⟩
  intro q _
  unfold get_disc
  rw [reset_board]
  split_ifs <;> simp

/-- C1. On every well-formed board (cells in {0,1,2}, side to move in {1,2}),
`get_valid_spots` returns, in strictly increasing row-major order and without duplicates,
exactly the on-board cells `c` that are Empty and for which some direction `dir` satisfies the
capture condition: `c + dir` starts a run of opponent discs and the first cell after the run is
on the board and holds a disc of the mover. -/
theorem get_valid_spots_spec (b : OthelloBoard) (hb : well_formed b) :
    (get_valid_spots b).Pairwise row_major_lt ∧ (get_valid_spots b).Nodup ∧
    ∀ c, c ∈ get_valid_spots b ↔
      (is_spot_on_board c = true ∧ get_disc b.board c = EMPTY ∧
        ∃ dir ∈ directions, ∃ n, run_captured b.board b.cur_player c dir n) := by
  have hsorted : (get_valid_spots b).Pairwise row_major_lt :=
    List.Pairwise.sublist (List.filter_sublist _) board_cells_sorted
  refine ⟨hsorted, ?_, ?_⟩
  · refine List.Pairwise.imp ?_ hsorted
    intro p q hlt heq
    subst heq
    unfold row_major_lt at hlt
    omega
  · intro c
    rw [mem_get_valid_spots, is_spot_valid_iff b hb]

/-- C1 at the opening position. -/
theorem get_valid_spots_spec_witness :
    well_formed reset ∧
    ((get_valid_spots reset).Pairwise row_major_lt ∧ (get_valid_spots reset).Nodup ∧
    ∀ c, c ∈ get_valid_spots reset ↔
      (is_spot_on_board c = true ∧ get_disc reset.board c = EMPTY ∧
        ∃ dir ∈ directions, ∃ n, run_captured reset.board reset.cur_player c dir n)) :=
  ⟨reset_well_formed, get_valid_spots_spec reset reset_well_formed⟩


theorem set_disc_get (g : Int → Int → Int) (s : Point) (m : Int) (q : Point) :
    get_disc (set_disc g s m) q = if q = s then m else get_disc g q := by
  unfold get_disc set_disc
  by_cases h : q = s
  · subst h; simp
  · have : ¬ (q.x = s.x ∧ q.y = s.y) := fun hh => h (Point.ext hh.1 hh.2)
    simp [h, this]

theorem set_discs_get (m : Int) :
    ∀ (ds : List Point) (g : Int → Int → Int) (q : Point),
      get_disc (set_discs g m ds) q = if q ∈ ds then m else get_disc g q := by
  intro ds
  induction ds with
  | nil => intro g q; simp [set_discs]
  | cons s rest ih =>
    intro g q
    unfold set_discs
    rw [ih, set_disc_get]
    by_cases h1 : q ∈ rest <;> by_cases h2 : q = s <;> simp [h1, h2]

theorem set_discs_valid (m : Int) (hm : m = BLACK ∨ m = WHITE) (ds : List Point)
    (g : Int → Int → Int) (hg : valid_grid g) : valid_grid (set_discs g m ds) := by
  intro q hq
  rw [set_discs_get]
  by_cases h : q ∈ ds
  · simp only [h, if_true]
    rcases hm with hm | hm <;> simp [hm]
  · simp only [h, if_false]
    exact hg q hq

/-- Walks from one centre in two different directions never meet. -/
theorem ray_disjoint (d1 d2 : Point) (h1 : d1 ∈ directions) (h2 : d2 ∈ directions)
    (hne : d1 ≠ d2) (c : Point) (j k : Nat) (hj : 1 ≤ j) (hk : 1 ≤ k) :
    ray c d1 j ≠ ray c d2 k := by
  simp only [directions, List.mem_cons, List.mem_singleton, List.not_mem_nil, or_false] at h1 h2
  intro heq
  have hx := congrArg Point.x heq
  have hy := congrArg Point.y heq
  simp only [ray] at hx hy
  rcases h1 with rfl | rfl | rfl | rfl | rfl | rfl | rfl | rfl <;>
    rcases h2 with rfl | rfl | rfl | rfl | rfl | rfl | rfl | rfl <;>
    first
      | exact hne rfl
      | (simp only at hx hy; omega)

/-- The capture condition in a direction only reads the cells of that direction. -/
theorem run_captured_congr (g1 g2 : Int → Int → Int) (m : Int) (c dir : Point) (n : Nat)
    (h : ∀ j, 1 ≤ j → get_disc g1 (ray c dir j) = get_disc g2 (ray c dir j)) :
    run_captured g1 m c dir n ↔ run_captured g2 m c dir n := by
  unfold run_captured
  simp only [is_disc_at_iff]
  constructor
  · rintro ⟨h2, hall, hstop⟩
    refine ⟨h2, ?_, hstop.1, by rw [← h n (by omega)]; exact hstop.2⟩
    intro j hj1 hj2
    exact ⟨(hall j hj1 hj2).1, by rw [← h j hj1]; exact (hall j hj1 hj2).2⟩
  · rintro ⟨h2, hall, hstop⟩
    refine ⟨h2, ?_, hstop.1, by rw [h n (by omega)]; exact hstop.2⟩
    intro j hj1 hj2
    exact ⟨(hall j hj1 hj2).1, by rw [h j hj1]; exact (hall j hj1 hj2).2⟩

theorem mem_run_list (c d q : Point) (n : Nat) :
    q ∈ [c + d] ++ (List.range n).map (fun j => ray (c + d + d) d j) ↔
      ∃ k, 1 ≤ k ∧ k < n + 2 ∧ q = ray c d k := by
  simp only [List.mem_append, List.mem_singleton, List.mem_map, List.mem_range, ray_add2]
  constructor
  · rintro (h | ⟨j, hj, rfl⟩)
    · exact ⟨1, by omega, by omega, by rw [ray_one]; exact h⟩
    · exact ⟨j + 2, by omega, by omega, rfl⟩
  · rintro ⟨k, hk1, hk2, rfl⟩
    rcases Nat.lt_or_ge k 2 with hlt | hge
    · left
      have : k = 1 := by omega
      subst this
      exact ray_one c d
    · right
      exact ⟨k - 2, by omega, by congr 1; omega⟩

/-- The grid after the direction loop of `flip_discs`: the cells of the captured runs of the
directions visited hold a disc of the mover, every other cell is as before. -/
theorem flip_discs_dirs_board (m : Int) (hm : m = BLACK ∨ m = WHITE) (c : Point) :
    ∀ (ds : List Point), (∀ d ∈ ds, d ∈ directions) → ds.Nodup →
      ∀ (st : (Int → Int → Int) × (Int → Int)), valid_grid st.1 → ∀ q,
        ((∃ dir ∈ ds, ∃ n k, run_captured st.1 m c dir n ∧ 1 ≤ k ∧ k < n ∧ q = ray c dir k) →
          get_disc (flip_discs_dirs m c ds st).1 q = m) ∧
        ((¬ ∃ dir ∈ ds, ∃ n k, run_captured st.1 m c dir n ∧ 1 ≤ k ∧ k < n ∧ q = ray c dir k) →
          get_disc (flip_discs_dirs m c ds st).1 q = get_disc st.1 q) := by
  intro ds
  induction ds with
  | nil => intro _ _ st _ q; simp [flip_discs_dirs]
  | cons d rest ih =>
    intro hds hnodup st hg q
    have hd : d ∈ directions := hds d (List.mem_cons_self _ _)
    have hrest : ∀ x ∈ rest, x ∈ directions := fun x hx => hds x (List.mem_cons_of_mem _ hx)
    have hnd : d ∉ rest := (List.nodup_cons.1 hnodup).1
    have hnodup2 : rest.Nodup := (List.nodup_cons.1 hnodup).2
    unfold flip_discs_dirs
    simp only [get_next_player]
    by_cases hA : is_disc_at st.1 (c + d) (3 - m) = true
    · have hon := ((is_disc_at_iff _ _ _).1 hA).1
      have hfuel := flip_discs_scan_fuel st.1 m d hd c hon [c + d]
      simp only [hA, Bool.not_true, Bool.false_eq_true, if_false]
      cases hs : flip_discs_scan st.1 m d 8 (c + d + d) [c + d] with
      | none => exact absurd hs hfuel
      | some r =>
        cases r with
        | none =>
          have hno : ∀ n, ¬ run_captured st.1 m c d n := by
            intro n hrun
            have hlt := run_captured_lt st.1 m c d hd n hrun
            obtain ⟨k, rfl⟩ : ∃ k, n = k + 2 := ⟨n - 2, by omega⟩
            have hw := ((walk_run_iff st.1 m hg hm c d k).2 hrun).2
            have := (flip_scan_some_iff st.1 m d 8 (c + d + d) [c + d] _).2
              ⟨k, by omega, hw, rfl⟩
            rw [hs] at this
            simp at this
          have hex : (∃ dir ∈ d :: rest, ∃ n k,
              run_captured st.1 m c dir n ∧ 1 ≤ k ∧ k < n ∧ q = ray c dir k) ↔
              (∃ dir ∈ rest, ∃ n k,
              run_captured st.1 m c dir n ∧ 1 ≤ k ∧ k < n ∧ q = ray c dir k) := by
            simp only [List.mem_cons, exists_eq_or_imp]
            constructor
            · rintro (⟨n, k, hrun, _⟩ | h)
              · exact absurd hrun (hno n)
              · exact h
            · intro h; exact Or.inr h
          simp only
          rw [hex]
          exact ih hrest hnodup2 st hg q
        | some discs =>
          obtain ⟨n0, hn0, hw, hdiscs⟩ :=
            (flip_scan_some_iff st.1 m d 8 (c + d + d) [c + d] discs).1 hs
          have hrun0 : run_captured st.1 m c d (n0 + 2) :=
            (walk_run_iff st.1 m hg hm c d n0).1 ⟨hA, hw⟩
          have hmem : ∀ x, x ∈ discs ↔ ∃ k, 1 ≤ k ∧ k < n0 + 2 ∧ x = ray c d k := by
            intro x; rw [hdiscs]; exact mem_run_list c d x n0
          have hg2 : valid_grid (set_discs st.1 m discs) := set_discs_valid m hm discs st.1 hg
          have hcongr : ∀ dir ∈ rest, ∀ n,
              run_captured (set_discs st.1 m discs) m c dir n ↔ run_captured st.1 m c dir n := by
            intro dir hdir n
            apply run_captured_congr
            intro j hj
            rw [set_discs_get]
            have : ray c dir j ∉ discs := by
              intro hin
              obtain ⟨k, hk1, _, hk⟩ := (hmem _).1 hin
              have hne : dir ≠ d := fun h => hnd (h ▸ hdir)
              exact ray_disjoint dir d (hrest dir hdir) hd hne c j k hj hk1 hk
            simp [this]
          have ih2 := ih hrest hnodup2
            (set_discs st.1 m discs,
              disc_count_add (disc_count_add st.2 m discs.length) (3 - m)
                (-(discs.length : Int))) hg2 q
          simp only at ih2 ⊢
          have hexrest : (∃ dir ∈ rest, ∃ n k,
              run_captured (set_discs st.1 m discs) m c dir n ∧ 1 ≤ k ∧ k < n ∧
                q = ray c dir k) ↔
              (∃ dir ∈ rest, ∃ n k,
              run_captured st.1 m c dir n ∧ 1 ≤ k ∧ k < n ∧ q = ray c dir k) := by
            constructor
            · rintro ⟨dir, hdir, n, k, hrun, h⟩
              exact ⟨dir, hdir, n, k, (hcongr dir hdir n).1 hrun, h⟩
            · rintro ⟨dir, hdir, n, k, hrun, h⟩
              exact ⟨dir, hdir, n, k, (hcongr dir hdir n).2 hrun, h⟩
          rw [hexrest] at ih2
          by_cases hin : q ∈ discs
          · have hval : get_disc (set_discs st.1 m discs) q = m := by
              rw [set_discs_get]; simp [hin]
            have hres : get_disc (flip_discs_dirs m c rest (set_discs st.1 m discs,
                disc_count_add (disc_count_add st.2 m discs.length) (3 - m)
                  (-(discs.length : Int)))).1 q = m := by
              by_cases hex : ∃ dir ∈ rest, ∃ n k,
                  run_captured st.1 m c dir n ∧ 1 ≤ k ∧ k < n ∧ q = ray c dir k
              · exact ih2.1 hex
              · rw [ih2.2 hex, hval]
            refine ⟨fun _ => hres, ?_⟩
            intro hno
            exfalso
            apply hno
            obtain ⟨k, hk1, hk2, hk⟩ := (hmem q).1 hin
            exact ⟨d, List.mem_cons_self _ _, n0 + 2, k, hrun0, hk1, hk2, hk⟩
          · have hval : get_disc (set_discs st.1 m discs) q = get_disc st.1 q := by
              rw [set_discs_get]; simp [hin]
            have hex : (∃ dir ∈ d :: rest, ∃ n k,
                run_captured st.1 m c dir n ∧ 1 ≤ k ∧ k < n ∧ q = ray c dir k) ↔
                (∃ dir ∈ rest, ∃ n k,
                run_captured st.1 m c dir n ∧ 1 ≤ k ∧ k < n ∧ q = ray c dir k) := by
              simp only [List.mem_cons, exists_eq_or_imp]
              constructor
              · rintro (⟨n, k, hrun, hk1, hk2, hk⟩ | h)
                · have := run_captured_unique st.1 m c d _ _ hrun hrun0
                  subst this
                  exact absurd ((hmem q).2 ⟨k, hk1, hk2, hk⟩) hin
                · exact h
              · intro h; exact Or.inr h
            rw [hex, ← hval]
            exact ih2
    · have hA2 : is_disc_at st.1 (c + d) (3 - m) = false := by simpa using hA
      simp only [hA2, Bool.not_false, if_true]
      have hex : (∃ dir ∈ d :: rest, ∃ n k,
          run_captured st.1 m c dir n ∧ 1 ≤ k ∧ k < n ∧ q = ray c dir k) ↔
          (∃ dir ∈ rest, ∃ n k,
          run_captured st.1 m c dir n ∧ 1 ≤ k ∧ k < n ∧ q = ray c dir k) := by
        simp only [List.mem_cons, exists_eq_or_imp]
        constructor
        · rintro (⟨n, k, hrun, _⟩ | h)
          · have := hrun.2.1 1 (by omega) (by have := hrun.1; omega)
            rw [ray_one] at this
            exact absurd this hA
          · exact h
        · intro h; exact Or.inr h
      rw [hex]
      exact ih hrest hnodup2 st hg q


theorem ray_ne_center (d : Point) (hd : d ∈ directions) (c : Point) (k : Nat) (hk : 1 ≤ k) :
    ray c d k ≠ c := by
  simp only [directions, List.mem_cons, List.mem_singleton, List.not_mem_nil, or_false] at hd
  intro heq
  have hx := congrArg Point.x heq
  have hy := congrArg Point.y heq
  simp only [ray] at hx hy
  rcases hd with rfl | rfl | rfl | rfl | rfl | rfl | rfl | rfl <;>
    (simp only at hx hy; omega)

theorem directions_nodup : directions.Nodup := by decide

theorem set_disc_valid (g : Int → Int → Int) (hg : valid_grid g) (s : Point) (m : Int)
    (hm : m = BLACK ∨ m = WHITE) : valid_grid (set_disc g s m) :=
  set_discs_valid m hm [s] g hg

/-- The grid that a legal `put_disc` leaves: the grid with the new disc, after the direction
loop of `flip_discs`. -/
theorem put_disc_board (b : OthelloBoard) (p : Point) (h : is_spot_valid b p = true) :
    (put_disc b p).1.board =
      (flip_discs_dirs b.cur_player p directions
        (set_disc b.board p b.cur_player,
          disc_count_add (disc_count_add b.disc_count b.cur_player 1) EMPTY (-1))).1 := by
  unfold put_disc
  simp only [h, Bool.not_true, Bool.false_eq_true, if_false, flip_discs]
  split_ifs <;> rfl

/-- The cells of the captured runs, read on the grid with the new disc or on the old grid. -/
theorem in_captured_run_set_disc (g : Int → Int → Int) (m : Int) (p q : Point) :
    (∃ dir ∈ directions, ∃ n k,
      run_captured (set_disc g p m) m p dir n ∧ 1 ≤ k ∧ k < n ∧ q = ray p dir k) ↔
    in_captured_run g m p q := by
  unfold in_captured_run
  have hc : ∀ dir ∈ directions, ∀ n,
      run_captured (set_disc g p m) m p dir n ↔ run_captured g m p dir n := by
    intro dir hdir n
    apply run_captured_congr
    intro j hj
    rw [set_disc_get]
    simp [ray_ne_center dir hdir p j hj]
  constructor
  · rintro ⟨dir, hdir, n, k, hrun, h⟩
    exact ⟨dir, hdir, n, k, (hc dir hdir n).1 hrun, h⟩
  · rintro ⟨dir, hdir, n, k, hrun, h⟩
    exact ⟨dir, hdir, n, k, (hc dir hdir n).2 hrun, h⟩

theorem put_disc_cells (b : OthelloBoard) (hb : well_formed b) (p : Point)
    (hv : is_spot_valid b p = true) (q : Point) :
    (in_captured_run b.board b.cur_player p q →
      get_disc (put_disc b p).1.board q = b.cur_player) ∧
    (¬ in_captured_run b.board b.cur_player p q →
      get_disc (put_disc b p).1.board q = if q = p then b.cur_player else get_disc b.board q) := by
  rw [put_disc_board b p hv]
  have hg1 := set_disc_valid b.board hb.1 p b.cur_player hb.2
  have key := flip_discs_dirs_board b.cur_player hb.2 p directions (fun d hd => hd)
    directions_nodup (set_disc b.board p b.cur_player,
      disc_count_add (disc_count_add b.disc_count b.cur_player 1) EMPTY (-1)) hg1 q
  simp only [in_captured_run_set_disc, set_disc_get] at key
  exact key

set_option maxRecDepth 100000 in
theorem put_disc_opening_fin :
    ∀ i j : Fin 8, (put_disc reset ⟨2, 3⟩).1.board (i.val : Int) (j.val : Int) =
      if ((i.val : Int) = 2 ∧ (j.val : Int) = 3) ∨ ((i.val : Int) = 3 ∧ (j.val : Int) = 3)
      then BLACK else reset.board (i.val : Int) (j.val : Int) := by
  decide


theorem in_captured_run_cell (g : Int → Int → Int) (m : Int) (c q : Point)
    (h : in_captured_run g m c q) :
    is_spot_on_board q = true ∧ get_disc g q = 3 - m ∧ q ≠ c := by
  obtain ⟨dir, hdir, n, k, hrun, hk1, hk2, rfl⟩ := h
  have := (is_disc_at_iff _ _ _).1 (hrun.2.1 k hk1 hk2)
  exact ⟨this.1, this.2, ray_ne_center dir hdir c k hk1⟩

theorem opening_move_mem : (⟨2, 3⟩ : Point) ∈ get_valid_spots reset := by decide

/-- C2. On a well-formed board, after `put_disc(p)` for a legal move `p` of the side to move
`m`: the cell `p` holds `m`; every cell of an opponent run that starts next to `p` in some
direction and is ended by a disc of `m` holds `m`; every other cell is unchanged; in
particular a disc of `m` keeps its colour, no other Empty cell is filled, and at least one
opponent disc is flipped.  From the fresh board, `put_disc((2,3))` changes exactly the cells
(2,3) and (3,3), both to Black. -/
theorem put_disc_grid :
    (∀ (b : OthelloBoard) (p : Point), well_formed b → p ∈ get_valid_spots b →
      get_disc (put_disc b p).1.board p = b.cur_player ∧
      (∀ q, in_captured_run b.board b.cur_player p q →
        get_disc (put_disc b p).1.board q = b.cur_player) ∧
      (∀ q, q ≠ p → ¬ in_captured_run b.board b.cur_player p q →
        get_disc (put_disc b p).1.board q = get_disc b.board q) ∧
      (∀ q, get_disc b.board q = b.cur_player →
        get_disc (put_disc b p).1.board q = b.cur_player) ∧
      (∀ q, q ≠ p → get_disc b.board q = EMPTY →
        get_disc (put_disc b p).1.board q = EMPTY) ∧
      (∃ q, is_spot_on_board q = true ∧ get_disc b.board q = 3 - b.cur_player ∧
        get_disc (put_disc b p).1.board q = b.cur_player)) ∧
    (∀ i j : Int, (put_disc reset ⟨2, 3⟩).1.board i j =
      if (i = 2 ∧ j = 3) ∨ (i = 3 ∧ j = 3) then BLACK else reset.board i j) := by
  have general : ∀ (b : OthelloBoard) (p : Point), well_formed b → p ∈ get_valid_spots b →
      get_disc (put_disc b p).1.board p = b.cur_player ∧
      (∀ q, in_captured_run b.board b.cur_player p q →
        get_disc (put_disc b p).1.board q = b.cur_player) ∧
      (∀ q, q ≠ p → ¬ in_captured_run b.board b.cur_player p q →
        get_disc (put_disc b p).1.board q = get_disc b.board q) ∧
      (∀ q, get_disc b.board q = b.cur_player →
        get_disc (put_disc b p).1.board q = b.cur_player) ∧
      (∀ q, q ≠ p → get_disc b.board q = EMPTY →
        get_disc (put_disc b p).1.board q = EMPTY) ∧
      (∃ q, is_spot_on_board q = true ∧ get_disc b.board q = 3 - b.cur_player ∧
        get_disc (put_disc b p).1.board q = b.cur_player) := by
    intro b p hb hp
    have hv := ((mem_get_valid_spots b p).1 hp).2
    obtain ⟨hempty, dir, hdir, n, hrun⟩ := (is_spot_valid_iff b hb p).1 hv
    have hcases := put_disc_cells b hb p hv
    have hm := hb.2
    simp only [BLACK, WHITE] at hm
    simp only [EMPTY] at hempty
    have hunch : ∀ q, q ≠ p → ¬ in_captured_run b.board b.cur_player p q →
        get_disc (put_disc b p).1.board q = get_disc b.board q := by
      intro q hq hn
      rw [(hcases q).2 hn, if_neg hq]
    refine ⟨?_, fun q => (hcases q).1, hunch, ?_, ?_, ?_⟩
    · have hn : ¬ in_captured_run b.board b.cur_player p p :=
        fun h => (in_captured_run_cell _ _ _ _ h).2.2 rfl
      rw [(hcases p).2 hn, if_pos rfl]
    · intro q hq
      by_cases hin : in_captured_run b.board b.cur_player p q
      · exact (hcases q).1 hin
      · have hqp : q ≠ p := by
          intro h; rw [h, hempty] at hq; omega
        rw [hunch q hqp hin, hq]
    · intro q hqp hq
      have hin : ¬ in_captured_run b.board b.cur_player p q := by
        intro h
        have := (in_captured_run_cell _ _ _ _ h).2.1
        rw [hq] at this
        simp only [EMPTY] at this
        omega
      rw [hunch q hqp hin, hq]
    · have h1 := (is_disc_at_iff _ _ _).1 (hrun.2.1 1 (by omega) (by have := hrun.1; omega))
      refine ⟨ray p dir 1, h1.1, h1.2, ?_⟩
      exact (hcases _).1 ⟨dir, hdir, n, 1, hrun, by omega, by have := hrun.1; omega, rfl⟩
  refine ⟨general, ?_⟩
  intro i j
  by_cases hon : is_spot_on_board ⟨i, j⟩ = true
  · rw [on_board_iff] at hon
    simp only at hon
    have := put_disc_opening_fin ⟨i.toNat, by omega⟩ ⟨j.toNat, by omega⟩
    simp only [Int.toNat_of_nonneg hon.1, Int.toNat_of_nonneg hon.2.2.1] at this
    exact this
  · have hq : (⟨i, j⟩ : Point) ≠ ⟨2, 3⟩ := by
      intro h; rw [h] at hon; exact hon (by decide)
    have hq3 : ¬ ((i = 2 ∧ j = 3) ∨ (i = 3 ∧ j = 3)) := by
      rintro (⟨rfl, rfl⟩ | ⟨rfl, rfl⟩) <;> exact hon (by decide)
    have hin : ¬ in_captured_run reset.board reset.cur_player ⟨2, 3⟩ ⟨i, j⟩ :=
      fun h => hon (in_captured_run_cell _ _ _ _ h).1
    have := (general reset ⟨2, 3⟩ reset_well_formed opening_move_mem).2.2.1 ⟨i, j⟩ hq hin
    simp only [get_disc] at this
    rw [this, if_neg hq3]

/-- C2 at the opening move (2,3) of the fresh board. -/
theorem put_disc_grid_witness :
    well_formed reset ∧ (⟨2, 3⟩ : Point) ∈ get_valid_spots reset ∧
    get_disc (put_disc reset ⟨2, 3⟩).1.board ⟨2, 3⟩ = reset.cur_player ∧
    (∀ q, in_captured_run reset.board reset.cur_player ⟨2, 3⟩ q →
      get_disc (put_disc reset ⟨2, 3⟩).1.board q = reset.cur_player) ∧
    (∀ q, q ≠ ⟨2, 3⟩ → ¬ in_captured_run reset.board reset.cur_player ⟨2, 3⟩ q →
      get_disc (put_disc reset ⟨2, 3⟩).1.board q = get_disc reset.board q) ∧
    (∀ q, get_disc reset.board q = reset.cur_player →
      get_disc (put_disc reset ⟨2, 3⟩).1.board q = reset.cur_player) ∧
    (∀ q, q ≠ ⟨2, 3⟩ → get_disc reset.board q = EMPTY →
      get_disc (put_disc reset ⟨2, 3⟩).1.board q = EMPTY) ∧
    (∃ q, is_spot_on_board q = true ∧ get_disc reset.board q = 3 - reset.cur_player ∧
      get_disc (put_disc reset ⟨2, 3⟩).1.board q = reset.cur_player) :=
  ⟨reset_well_formed, opening_move_mem,
    put_disc_grid.1 reset ⟨2, 3⟩ reset_well_formed opening_move_mem⟩


theorem get_valid_spots_eq (b : OthelloBoard) :
    get_valid_spots b = legal_moves b.board b.cur_player := by
  unfold legal_moves get_valid_spots is_spot_valid
  rfl

/-- The outcome of a legal `put_disc`, by the three cases of its pass / game-end test. -/
theorem put_disc_legal_cases (b : OthelloBoard) (p : Point) (hv : is_spot_valid b p = true) :
    (put_disc b p).2 = true ∧
    (legal_moves (put_disc b p).1.board (3 - b.cur_player) ≠ [] →
      (put_disc b p).1.cur_player = 3 - b.cur_player ∧
      (put_disc b p).1.next_valid_spots =
        legal_moves (put_disc b p).1.board (3 - b.cur_player) ∧
      (put_disc b p).1.done = b.done ∧ (put_disc b p).1.winner = b.winner) ∧
    (legal_moves (put_disc b p).1.board (3 - b.cur_player) = [] →
      legal_moves (put_disc b p).1.board b.cur_player ≠ [] →
      (put_disc b p).1.cur_player = b.cur_player ∧
      (put_disc b p).1.next_valid_spots = legal_moves (put_disc b p).1.board b.cur_player ∧
      (put_disc b p).1.done = b.done ∧ (put_disc b p).1.winner = b.winner) ∧
    (legal_moves (put_disc b p).1.board (3 - b.cur_player) = [] →
      legal_moves (put_disc b p).1.board b.cur_player = [] →
      (put_disc b p).1.cur_player = b.cur_player ∧
      (put_disc b p).1.next_valid_spots = [] ∧
      (put_disc b p).1.done = true ∧
      (put_disc b p).1.winner =
        if (put_disc b p).1.disc_count WHITE = (put_disc b p).1.disc_count BLACK then EMPTY
        else if (put_disc b p).1.disc_count BLACK > (put_disc b p).1.disc_count WHITE
        then BLACK else WHITE) := by
  unfold put_disc
  simp only [hv, Bool.not_true, Bool.false_eq_true, if_false, get_next_player, flip_discs,
    List.length_eq_zero, get_valid_spots_eq, sub_sub_cancel]
  split_ifs with h1 h2 h3 h4 <;> simp_all


theorem is_spot_valid_empty (b : OthelloBoard) (c : Point) (h : is_spot_valid b c = true) :
    get_disc b.board c = EMPTY := by
  unfold is_spot_valid at h
  by_cases h0 : get_disc b.board c = EMPTY
  · exact h0
  · simp [h0] at h

theorem mem_legal_moves_empty (g : Int → Int → Int) (pl : Int) (c : Point)
    (h : c ∈ legal_moves g pl) : is_spot_on_board c = true ∧ get_disc g c = EMPTY := by
  unfold legal_moves at h
  rw [mem_get_valid_spots] at h
  exact ⟨h.1, is_spot_valid_empty _ _ h.2⟩

/-- C3. For every board and every on-board point `p`, `put_disc(p)` returns false exactly
when `p` is not in the legal-move list computed from the grid and the side to move of the board; and
when it returns false it sets `done = true` and `winner = 3 - cur_player` and leaves the grid,
`cur_player`, the tallies and the cached legal-move list unchanged. -/
theorem put_disc_illegal (b : OthelloBoard) (p : Point) (hp : is_spot_on_board p = true) :
    ((put_disc b p).2 = false ↔ p ∉ get_valid_spots b) ∧
    ((put_disc b p).2 = false →
      (put_disc b p).1.done = true ∧ (put_disc b p).1.winner = 3 - b.cur_player ∧
      (put_disc b p).1.board = b.board ∧ (put_disc b p).1.cur_player = b.cur_player ∧
      (put_disc b p).1.disc_count = b.disc_count ∧
      (put_disc b p).1.next_valid_spots = b.next_valid_spots) := by
  by_cases hv : is_spot_valid b p = true
  · have h2 := (put_disc_legal_cases b p hv).1
    have hmem : p ∈ get_valid_spots b := (mem_get_valid_spots b p).2 ⟨hp, hv⟩
    simp [h2, hmem]
  · have hv2 : is_spot_valid b p = false := by simpa using hv
    have hmem : p ∉ get_valid_spots b := fun h => hv ((mem_get_valid_spots b p).1 h).2
    simp [put_disc, hv2, hmem, get_next_player]

/-- C3 at the fresh board and the cell (0,0), which is not a legal move there. -/
theorem put_disc_illegal_witness :
    is_spot_on_board ⟨0, 0⟩ = true ∧
    (((put_disc reset ⟨0, 0⟩).2 = false ↔ (⟨0, 0⟩ : Point) ∉ get_valid_spots reset) ∧
    ((put_disc reset ⟨0, 0⟩).2 = false →
      (put_disc reset ⟨0, 0⟩).1.done = true ∧
      (put_disc reset ⟨0, 0⟩).1.winner = 3 - reset.cur_player ∧
      (put_disc reset ⟨0, 0⟩).1.board = reset.board ∧
      (put_disc reset ⟨0, 0⟩).1.cur_player = reset.cur_player ∧
      (put_disc reset ⟨0, 0⟩).1.disc_count = reset.disc_count ∧
      (put_disc reset ⟨0, 0⟩).1.next_valid_spots = reset.next_valid_spots)) :=
  ⟨by decide, put_disc_illegal reset ⟨0, 0⟩ (by decide)⟩

/-- C4. Pass rule: for every board with `done = false` and every legal move `p` of the side
to move `m`, after `put_disc(p)` the side to move is the opponent `3 - m` when the opponent
has a legal move on the resulting grid; when the opponent has none but `m` has one, the side
to move is `m` again, `done` is still false and the cached legal-move list is the non-empty
list of `m`. -/
theorem put_disc_pass_rule (b : OthelloBoard) (p : Point) (hdone : b.done = false)
    (hp : p ∈ get_valid_spots b) :
    (legal_moves (put_disc b p).1.board (3 - b.cur_player) ≠ [] →
      (put_disc b p).1.cur_player = 3 - b.cur_player) ∧
    (legal_moves (put_disc b p).1.board (3 - b.cur_player) = [] →
      legal_moves (put_disc b p).1.board b.cur_player ≠ [] →
      (put_disc b p).1.cur_player = b.cur_player ∧ (put_disc b p).1.done = false ∧
      (put_disc b p).1.next_valid_spots = legal_moves (put_disc b p).1.board b.cur_player ∧
      (put_disc b p).1.next_valid_spots ≠ []) := by
  have hv := ((mem_get_valid_spots b p).1 hp).2
  obtain ⟨_, hA, hB, _⟩ := put_disc_legal_cases b p hv
  refine ⟨fun h => (hA h).1, ?_⟩
  intro h1 h2
  obtain ⟨hc, hn, hd, _⟩ := hB h1 h2
  exact ⟨hc, by rw [hd, hdone], hn, by rw [hn]; exact h2⟩

set_option maxRecDepth 100000 in
/-- C4 at a position where the move (7,0) forces the opponent to pass. -/
theorem put_disc_pass_rule_witness :
    corner_pass_board.done = false ∧ (⟨7, 0⟩ : Point) ∈ get_valid_spots corner_pass_board ∧
    legal_moves (put_disc corner_pass_board ⟨7, 0⟩).1.board (3 - corner_pass_board.cur_player)
      = [] ∧
    legal_moves (put_disc corner_pass_board ⟨7, 0⟩).1.board corner_pass_board.cur_player
      ≠ [] ∧
    (put_disc corner_pass_board ⟨7, 0⟩).1.cur_player = corner_pass_board.cur_player ∧
    (put_disc corner_pass_board ⟨7, 0⟩).1.done = false ∧
    (put_disc corner_pass_board ⟨7, 0⟩).1.next_valid_spots =
      legal_moves (put_disc corner_pass_board ⟨7, 0⟩).1.board corner_pass_board.cur_player ∧
    (put_disc corner_pass_board ⟨7, 0⟩).1.next_valid_spots ≠ [] :=
  have h1 : corner_pass_board.done = false := by decide
  have h2 : (⟨7, 0⟩ : Point) ∈ get_valid_spots corner_pass_board := by decide
  have h3 : legal_moves (put_disc corner_pass_board ⟨7, 0⟩).1.board
      (3 - corner_pass_board.cur_player) = [] := by decide
  have h4 : legal_moves (put_disc corner_pass_board ⟨7, 0⟩).1.board
      corner_pass_board.cur_player ≠ [] := by decide
  ⟨h1, h2, h3, h4, (put_disc_pass_rule corner_pass_board ⟨7, 0⟩ h1 h2).2 h3 h4⟩

/-- C5. Termination and winner: for every board with `done = false`, side to move in
{1, 2}, and every legal move `p`, after `put_disc(p)` `done` is true exactly when neither
side has a legal move on the resulting grid, in particular when the resulting grid has no
Empty cell; and then `winner` is BLACK when `disc_count[BLACK] > disc_count[WHITE]`, WHITE when
`disc_count[WHITE] > disc_count[BLACK]`, and 0 exactly when the two tallies are equal. -/
theorem put_disc_game_end (b : OthelloBoard) (p : Point) (hdone : b.done = false)
    (hcur : b.cur_player = BLACK ∨ b.cur_player = WHITE) (hp : p ∈ get_valid_spots b) :
    ((put_disc b p).1.done = true ↔
      (legal_moves (put_disc b p).1.board BLACK = [] ∧
        legal_moves (put_disc b p).1.board WHITE = [])) ∧
    ((∀ q, is_spot_on_board q = true → get_disc (put_disc b p).1.board q ≠ EMPTY) →
      (put_disc b p).1.done = true) ∧
    ((put_disc b p).1.done = true →
      ((put_disc b p).1.disc_count BLACK > (put_disc b p).1.disc_count WHITE →
        (put_disc b p).1.winner = BLACK) ∧
      ((put_disc b p).1.disc_count WHITE > (put_disc b p).1.disc_count BLACK →
        (put_disc b p).1.winner = WHITE) ∧
      ((put_disc b p).1.winner = 0 ↔
        (put_disc b p).1.disc_count BLACK = (put_disc b p).1.disc_count WHITE)) := by
  have hv := ((mem_get_valid_spots b p).1 hp).2
  obtain ⟨_, hA, hB, hC⟩ := put_disc_legal_cases b p hv
  have hiff : (put_disc b p).1.done = true ↔
      (legal_moves (put_disc b p).1.board BLACK = [] ∧
        legal_moves (put_disc b p).1.board WHITE = []) := by
    have hboth : (legal_moves (put_disc b p).1.board BLACK = [] ∧
        legal_moves (put_disc b p).1.board WHITE = []) ↔
        (legal_moves (put_disc b p).1.board (3 - b.cur_player) = [] ∧
          legal_moves (put_disc b p).1.board b.cur_player = []) := by
      rcases hcur with h | h
      · rw [h, show (3 : Int) - BLACK = WHITE from rfl]
        exact and_comm
      · rw [h, show (3 : Int) - WHITE = BLACK from rfl]
    rw [hboth]
    by_cases h1 : legal_moves (put_disc b p).1.board (3 - b.cur_player) = []
    · by_cases h2 : legal_moves (put_disc b p).1.board b.cur_player = []
      · simp [h1, h2, (hC h1 h2).2.2.1]
      · have := (hB h1 h2).2.2.1
        rw [hdone] at this
        simp [h1, h2, this]
    · have := (hA h1).2.2.1
      rw [hdone] at this
      simp [h1, this]
  refine ⟨hiff, ?_, ?_⟩
  · intro hfull
    rw [hiff]
    constructor
    · apply List.eq_nil_iff_forall_not_mem.2
      intro c hc
      have := mem_legal_moves_empty _ _ _ hc
      exact hfull c this.1 this.2
    · apply List.eq_nil_iff_forall_not_mem.2
      intro c hc
      have := mem_legal_moves_empty _ _ _ hc
      exact hfull c this.1 this.2
  · intro hd
    have h1 : legal_moves (put_disc b p).1.board (3 - b.cur_player) = [] := by
      by_contra h1
      have := (hA h1).2.2.1
      rw [hdone, hd] at this
      cases this
    have h2 : legal_moves (put_disc b p).1.board b.cur_player = [] := by
      by_contra h2
      have := (hB h1 h2).2.2.1
      rw [hdone, hd] at this
      cases this
    have hw := (hC h1 h2).2.2.2
    rw [hw]
    simp only [EMPTY, BLACK, WHITE]
    refine ⟨?_, ?_, ?_⟩
    · intro h
      split_ifs <;> omega
    · intro h
      split_ifs <;> omega
    · split_ifs <;> omega

set_option maxRecDepth 100000 in
/-- C5 at a position where the move (0,0) fills the last Empty cell. -/
theorem put_disc_game_end_witness :
    last_move_board.done = false ∧
    (last_move_board.cur_player = BLACK ∨ last_move_board.cur_player = WHITE) ∧
    (⟨0, 0⟩ : Point) ∈ get_valid_spots last_move_board ∧
    (put_disc last_move_board ⟨0, 0⟩).1.done = true ∧
    (put_disc last_move_board ⟨0, 0⟩).1.winner = BLACK :=
  have h1 : last_move_board.done = false := by decide
  have h2 : last_move_board.cur_player = BLACK ∨ last_move_board.cur_player = WHITE :=
    Or.inl (by decide)
  have h3 : (⟨0, 0⟩ : Point) ∈ get_valid_spots last_move_board := by decide
  have hall := put_disc_game_end last_move_board ⟨0, 0⟩ h1 h2 h3
  have h4 : legal_moves (put_disc last_move_board ⟨0, 0⟩).1.board BLACK = [] ∧
      legal_moves (put_disc last_move_board ⟨0, 0⟩).1.board WHITE = [] := by decide
  have h5 : (put_disc last_move_board ⟨0, 0⟩).1.disc_count BLACK >
      (put_disc last_move_board ⟨0, 0⟩).1.disc_count WHITE := by decide
  ⟨h1, h2, h3, hall.1.2 h4, (hall.2.2 (hall.1.2 h4)).1 h5⟩


/-- C6. After `reset()` (which is all the constructor does) the grid is Empty except Black at
(3,4) and (4,3) and White at (3,3) and (4,4); Black is to move; the tallies are
{Empty 60, Black 2, White 2}; `done` is false and `winner` is -1; and the legal-move list is
[(2,3), (3,2), (4,5), (5,4)] in that order. -/
theorem reset_spec :
    (∀ i j : Int, reset.board i j =
      if (i = 3 ∧ j = 4) ∨ (i = 4 ∧ j = 3) then BLACK
      else if (i = 3 ∧ j = 3) ∨ (i = 4 ∧ j = 4) then WHITE
      else EMPTY) ∧
    reset.cur_player = BLACK ∧
    reset.disc_count EMPTY = 60 ∧ reset.disc_count BLACK = 2 ∧ reset.disc_count WHITE = 2 ∧
    reset.done = false ∧ reset.winner = -1 ∧
    reset.next_valid_spots = [⟨2, 3⟩, ⟨3, 2⟩, ⟨4, 5⟩, ⟨5, 4⟩] := by
  refine ⟨reset_board, rfl, by decide, by decide, by decide, rfl, rfl, ?_⟩
  decide

theorem find_heur_cells_sum :
    board_cells.foldl (fun acc curp => acc + find_heur_cell curp) 0 = 1956950 := by decide

/-- C7. For every board `b`, `find_heur(b) = K - 10 * (number of legal moves of the side to
move in b)`, where `K` is the sum over the 64 cells of the positional contribution of the cell
(a function of the coordinates of the cell only) and `K = 1956950`.  So two boards with the same
number of legal moves get the same score and a board with more legal moves gets a strictly
lower score. -/
theorem find_heur_spec :
    (board_cells.map find_heur_cell).sum = 1956950 ∧
    (∀ b : OthelloBoard, find_heur b =
      (board_cells.map find_heur_cell).sum - 10 * ((get_valid_spots b).length : Int)) ∧
    (∀ b1 b2 : OthelloBoard, (get_valid_spots b1).length = (get_valid_spots b2).length →
      find_heur b1 = find_heur b2) ∧
    (∀ b1 b2 : OthelloBoard, (get_valid_spots b1).length < (get_valid_spots b2).length →
      find_heur b2 < find_heur b1) := by
  have hK : (board_cells.map find_heur_cell).sum = 1956950 := by decide
  have hb : ∀ b : OthelloBoard,
      find_heur b = 1956950 - 10 * ((get_valid_spots b).length : Int) := by
    intro b
    unfold find_heur
    simp only [find_heur_cells_sum]
    ring
  refine ⟨hK, ?_, ?_, ?_⟩
  · intro b; rw [hK, hb]
  · intro b1 b2 h; rw [hb, hb, h]
  · intro b1 b2 h; rw [hb, hb]; omega

/-- C7 at the opening position and the position after the opening move (2,3). -/
theorem find_heur_spec_witness :
    (get_valid_spots (put_disc reset ⟨2, 3⟩).1).length < (get_valid_spots reset).length ∧
    find_heur reset < find_heur (put_disc reset ⟨2, 3⟩).1 :=
  have h : (get_valid_spots (put_disc reset ⟨2, 3⟩).1).length <
      (get_valid_spots reset).length := by decide
  ⟨h, find_heur_spec.2.2.2 _ _ h⟩


/-- The state of the selection loop after `n` iterations, when the scores are `s`. -/
theorem write_valid_spot_loop_inv (player : Int) (board_orgi : Int → Int → Int)
    (s : Nat → Int) :
    ∀ n : Nat, (∀ i, i < n → write_valid_spot_score player board_orgi i = some (s i)) →
      ∃ index heur, write_valid_spot_loop player board_orgi n = some (index, heur) ∧
        (index = none → heur = 0 ∧ ∀ i, i < n → s i ≤ 0) ∧
        (∀ i0, index = some i0 →
          i0 < n ∧ 0 < s i0 ∧ heur = s i0 ∧ (∀ j, j < n → s j ≤ s i0) ∧
            (∀ j, j < i0 → s j < s i0)) := by
  intro n
  induction n with
  | zero =>
    intro _
    refine ⟨none, 0, by simp [write_valid_spot_loop], ?_, ?_⟩
    · intro _; exact ⟨rfl, fun i hi => by omega⟩
    · intro i0 h; cases h
  | succ n ih =>
    intro hs
    obtain ⟨index, heur, hloop, hnone, hsome⟩ := ih (fun i hi => hs i (by omega))
    have hn := hs n (by omega)
    unfold write_valid_spot_loop at hloop ⊢
    rw [List.range_succ, List.foldlM_append, hloop]
    simp only [Option.bind_eq_bind, Option.some_bind, List.foldlM_cons, List.foldlM_nil,
      write_valid_spot_step, hn]
    by_cases hgt : s n > heur
    · refine ⟨some n, s n, ?_, ?_, ?_⟩
      · simp [hgt]
      · intro h; cases h
      intro i0 hi0
      simp only [Option.some.injEq] at hi0
      subst hi0
      cases index with
      | none =>
        obtain ⟨h0, hall⟩ := hnone rfl
        refine ⟨by omega, by omega, rfl, ?_, ?_⟩
        · intro j hj
          rcases Nat.lt_or_ge j n with h | h
          · have := hall j h; omega
          · have : j = n := by omega
            rw [this]
        · intro j hj
          have := hall j hj; omega
      | some i1 =>
        obtain ⟨h1, h2, h3, h4, h5⟩ := hsome i1 rfl
        refine ⟨by omega, by omega, rfl, ?_, ?_⟩
        · intro j hj
          rcases Nat.lt_or_ge j n with h | h
          · have := h4 j h; omega
          · have : j = n := by omega
            rw [this]
        · intro j hj
          have := h4 j hj; omega
    · refine ⟨index, heur, ?_, ?_, ?_⟩
      · simp [hgt]
      · intro h
        obtain ⟨h0, hall⟩ := hnone h
        refine ⟨h0, ?_⟩
        intro i hi
        rcases Nat.lt_or_ge i n with h | h
        · exact hall i h
        · have : i = n := by omega
          rw [this]; omega
      · intro i0 hi0
        obtain ⟨h1, h2, h3, h4, h5⟩ := hsome i0 hi0
        refine ⟨by omega, h2, h3, ?_, h5⟩
        intro j hj
        rcases Nat.lt_or_ge j n with h | h
        · exact h4 j h
        · have : j = n := by omega
          rw [this]; omega

/-- C9. Move selection: when the loop of `write_valid_spot` computes the candidate scores
`s 0, …, s (n-1)` (`n` the length of the supplied list), the recorded index is the smallest `i`
with `s i > 0` and `s i` the maximum of all scores, and the output is the supplied candidate at
that index; if no score is strictly greater than 0 the index is never assigned. -/
theorem write_valid_spot_selects (player : Int) (board_orgi : Int → Int → Int)
    (next_valid_spots_orgi : List Point) (s : Nat → Int)
    (hs : ∀ i, i < next_valid_spots_orgi.length →
      write_valid_spot_score player board_orgi i = some (s i)) :
    ∃ index heur,
      write_valid_spot_loop player board_orgi next_valid_spots_orgi.length =
        some (index, heur) ∧
      (∀ i0, index = some i0 →
        i0 < next_valid_spots_orgi.length ∧ 0 < s i0 ∧ heur = s i0 ∧
        (∀ j, j < next_valid_spots_orgi.length → s j ≤ s i0) ∧
        (∀ j, j < next_valid_spots_orgi.length → 0 < s j →
          (∀ k, k < next_valid_spots_orgi.length → s k ≤ s j) → i0 ≤ j) ∧
        write_valid_spot player board_orgi next_valid_spots_orgi =
          next_valid_spots_orgi[i0]?) ∧
      (index = none ↔ ∀ i, i < next_valid_spots_orgi.length → s i ≤ 0) ∧
      (index = none → write_valid_spot player board_orgi next_valid_spots_orgi = none) := by
  obtain ⟨index, heur, hloop, hnone, hsome⟩ :=
    write_valid_spot_loop_inv player board_orgi s next_valid_spots_orgi.length hs
  refine ⟨index, heur, hloop, ?_, ?_, ?_⟩
  · intro i0 hi0
    obtain ⟨h1, h2, h3, h4, h5⟩ := hsome i0 hi0
    refine ⟨h1, h2, h3, h4, ?_, ?_⟩
    · intro j hj _ hmax
      by_contra hlt
      have := h5 j (by omega)
      have := hmax i0 h1
      omega
    · unfold write_valid_spot
      rw [hloop, hi0]
  · constructor
    · intro h; exact (hnone h).2
    · intro hall
      cases index with
      | none => rfl
      | some i0 =>
        obtain ⟨h1, h2, _⟩ := hsome i0 rfl
        have := hall i0 h1
        omega
  · intro h
    unfold write_valid_spot
    rw [hloop, h]



set_option maxRecDepth 1000000 in
set_option maxHeartbeats 4000000 in
/-- C8 (the code departs from the claim). At `corner_pass_board` (White to move), depth 2,
full window and maximizing side Black, `minimax` returns 1906920 while the same recursion
without the two cut-offs returns 1906940: after the first move has lowered `beta`, the corner
move (7,0) leads, through a pass, to a maximizing child that is cut off after its first move;
the value it returns is only a lower bound, but once 50000 is subtracted it is taken as the
exact value of the corner move.  The same happens in a call made by `write_valid_spot`: on
`single_move_grid` with Black deciding, the depth-3 score recorded for the only candidate
(7,5) is 1906940, the traversal without cut-offs gives 1906950. -/
theorem minimax_cutoff_changes_score :
    (minimax corner_pass_board 2 (-10000000) 10000000 1 = 1906920 ∧
      minimax_nocut corner_pass_board 2 (-10000000) 10000000 1 = 1906940) ∧
    (get_valid_spots (write_valid_spot_curboard 1 single_move_grid) = [⟨7, 5⟩] ∧
      write_valid_spot_score 1 single_move_grid 0 = some 1906940 ∧
      minimax_nocut (put_disc (write_valid_spot_curboard 1 single_move_grid) ⟨7, 5⟩).1 3
        (-10000000) 10000000 1 = 1906950) := by
  decide

set_option maxRecDepth 1000000 in
theorem two_moves_scores :
    ∀ i, i < 2 → write_valid_spot_score 1 two_moves_grid i =
      some (if i = 0 then 1956950 else 1906950) := by
  decide

/-- C9 on `two_moves_grid` with Black to decide and the supplied list [(0,0), (1,0)]. -/
theorem write_valid_spot_selects_witness :
    (∀ i, i < [(⟨0, 0⟩ : Point), ⟨1, 0⟩].length →
      write_valid_spot_score 1 two_moves_grid i =
        some ((fun i : Nat => if i = 0 then (1956950 : Int) else 1906950) i)) ∧
    ∃ index heur,
      write_valid_spot_loop 1 two_moves_grid [(⟨0, 0⟩ : Point), ⟨1, 0⟩].length =
        some (index, heur) ∧
      (∀ i0, index = some i0 →
        i0 < [(⟨0, 0⟩ : Point), ⟨1, 0⟩].length ∧
        0 < (fun i : Nat => if i = 0 then (1956950 : Int) else 1906950) i0 ∧
        heur = (fun i : Nat => if i = 0 then (1956950 : Int) else 1906950) i0 ∧
        (∀ j, j < [(⟨0, 0⟩ : Point), ⟨1, 0⟩].length →
          (fun i : Nat => if i = 0 then (1956950 : Int) else 1906950) j ≤
            (fun i : Nat => if i = 0 then (1956950 : Int) else 1906950) i0) ∧
        (∀ j, j < [(⟨0, 0⟩ : Point), ⟨1, 0⟩].length →
          0 < (fun i : Nat => if i = 0 then (1956950 : Int) else 1906950) j →
          (∀ k, k < [(⟨0, 0⟩ : Point), ⟨1, 0⟩].length →
            (fun i : Nat => if i = 0 then (1956950 : Int) else 1906950) k ≤
              (fun i : Nat => if i = 0 then (1956950 : Int) else 1906950) j) → i0 ≤ j) ∧
        write_valid_spot 1 two_moves_grid [(⟨0, 0⟩ : Point), ⟨1, 0⟩] =
          [(⟨0, 0⟩ : Point), ⟨1, 0⟩][i0]?) ∧
      (index = none ↔ ∀ i, i < [(⟨0, 0⟩ : Point), ⟨1, 0⟩].length →
        (fun i : Nat => if i = 0 then (1956950 : Int) else 1906950) i ≤ 0) ∧
      (index = none → write_valid_spot 1 two_moves_grid [(⟨0, 0⟩ : Point), ⟨1, 0⟩] = none) :=
  ⟨two_moves_scores,
    write_valid_spot_selects 1 two_moves_grid [⟨0, 0⟩, ⟨1, 0⟩]
      (fun i => if i = 0 then 1956950 else 1906950) two_moves_scores⟩

set_option maxRecDepth 1000000 in
/-- C10 (the code departs from the claim). On `two_moves_grid`, Black deciding, with the
supplied list [(1,0), (0,0)]: the score recorded for index 0 is 1956950, the score of the
move (0,0), the first element of the list the code computes itself; the successor reached by
the supplied candidate (1,0) scores 1906950; and the move written out is the supplied (1,0). -/
theorem write_valid_spot_scores_own_list :
    write_valid_spot_score 1 two_moves_grid 0 = some 1956950 ∧
    minimax (put_disc (write_valid_spot_curboard 1 two_moves_grid) ⟨1, 0⟩).1 3
      (-10000000) 10000000 1 = 1906950 ∧
    write_valid_spot 1 two_moves_grid [⟨1, 0⟩, ⟨0, 0⟩] = some ⟨1, 0⟩ := by
  decide



/-! ## Positional classes -/

set_option maxRecDepth 100000 in
theorem positional_classes_cells :
    ∀ p ∈ board_cells,
      List.Pairwise (fun a b : Bool => ¬ (a = true ∧ b = true))
        [is_corner p, is_edge p, is_notgoodcorner p, is_deadedge p, is_goodcorner p,
          is_notgoodedge p, is_goodedge p] ∧
      find_heur_cell p =
        (if is_corner p then 500000 else 0) + (if is_edge p then 1000 else 0) +
        (if is_notgoodcorner p then -5000 else 0) + (if is_deadedge p then -5000 else 0) +
        (if is_goodcorner p then 50 else 0) + (if is_notgoodedge p then 0 else 0) +
        (if is_goodedge p then 100 else 0) := by
  decide

/-- C16. On every on-board cell the seven positional predicates `is_corner`, `is_edge`,
`is_notgoodcorner`, `is_deadedge`, `is_goodcorner`, `is_notgoodedge`, `is_goodedge` are
pairwise mutually exclusive, so every cell falls in exactly one category (one of the seven, or
none of them), and what the `else if` chain of `find_heur` adds for the cell is the sum of the
seven separate contributions, whatever the order of the tests. -/
theorem positional_classes_exclusive (p : Point) (hp : is_spot_on_board p = true) :
    List.Pairwise (fun a b : Bool => ¬ (a = true ∧ b = true))
      [is_corner p, is_edge p, is_notgoodcorner p, is_deadedge p, is_goodcorner p,
        is_notgoodedge p, is_goodedge p] ∧
    find_heur_cell p =
      (if is_corner p then 500000 else 0) + (if is_edge p then 1000 else 0) +
      (if is_notgoodcorner p then -5000 else 0) + (if is_deadedge p then -5000 else 0) +
      (if is_goodcorner p then 50 else 0) + (if is_notgoodedge p then 0 else 0) +
      (if is_goodedge p then 100 else 0) :=
  positional_classes_cells p ((mem_board_cells p).2 hp)

/-- C16 at the cell (2,5). -/
theorem positional_classes_exclusive_witness :
    is_spot_on_board ⟨2, 5⟩ = true ∧
    List.Pairwise (fun a b : Bool => ¬ (a = true ∧ b = true))
      [is_corner ⟨2, 5⟩, is_edge ⟨2, 5⟩, is_notgoodcorner ⟨2, 5⟩, is_deadedge ⟨2, 5⟩,
        is_goodcorner ⟨2, 5⟩, is_notgoodedge ⟨2, 5⟩, is_goodedge ⟨2, 5⟩] :=
  ⟨by decide, (positional_classes_exclusive ⟨2, 5⟩ (by decide)).1⟩

/-- C19 (the code departs from the claim). `is_goodcorner` tests (2,5) twice and never
(2,2): the cell (2,2) is in no category and contributes 0, while its mirror images (2,5),
(5,2) and (5,5) are good corners and contribute 50 each. -/
theorem is_goodcorner_misses_2_2 :
    is_goodcorner ⟨2, 2⟩ = false ∧ is_goodcorner ⟨2, 5⟩ = true ∧
    is_goodcorner ⟨5, 2⟩ = true ∧ is_goodcorner ⟨5, 5⟩ = true ∧
    find_heur_cell ⟨2, 2⟩ = 0 ∧ find_heur_cell ⟨2, 5⟩ = 50 ∧
    find_heur_cell ⟨5, 2⟩ = 50 ∧ find_heur_cell ⟨5, 5⟩ = 50 := by
  decide


/-! ## Invariants of the reachable boards -/

theorem get_valid_spots_congr (b1 b2 : OthelloBoard) (h1 : b1.board = b2.board)
    (h2 : b1.cur_player = b2.cur_player) : get_valid_spots b1 = get_valid_spots b2 := by
  rw [get_valid_spots_eq, get_valid_spots_eq, h1, h2]

theorem put_disc_illegal_eq (b : OthelloBoard) (p : Point) (hv : is_spot_valid b p = false) :
    put_disc b p = ({ b with winner := get_next_player b.cur_player, done := true }, false) := by
  simp [put_disc, hv]

/-- After any `put_disc` the cached list is the list computed from the new grid and side,
provided it was so before. -/
theorem put_disc_cache (b : OthelloBoard) (p : Point)
    (h : b.next_valid_spots = get_valid_spots b) :
    (put_disc b p).1.next_valid_spots = get_valid_spots (put_disc b p).1 := by
  by_cases hv : is_spot_valid b p = true
  · obtain ⟨_, hA, hB, hC⟩ := put_disc_legal_cases b p hv
    rw [get_valid_spots_eq]
    by_cases h1 : legal_moves (put_disc b p).1.board (3 - b.cur_player) = []
    · by_cases h2 : legal_moves (put_disc b p).1.board b.cur_player = []
      · obtain ⟨hc, hn, _⟩ := hC h1 h2
        rw [hn, hc, h2]
      · obtain ⟨hc, hn, _⟩ := hB h1 h2
        rw [hn, hc]
    · obtain ⟨hc, hn, _⟩ := hA h1
      rw [hn, hc]
  · have hv2 : is_spot_valid b p = false := by simpa using hv
    rw [put_disc_illegal_eq b p hv2]
    simp only
    rw [h]
    exact get_valid_spots_congr _ _ rfl rfl

/-- C13. For every board reachable from `reset()` by `put_disc` calls, the cached list
`next_valid_spots` equals `get_valid_spots()` computed from the current grid and
`cur_player` (same elements, same order). -/
theorem reachable_cache_consistent (b : OthelloBoard) (hb : Reachable b) :
    b.next_valid_spots = get_valid_spots b := by
  induction hb with
  | init => decide
  | step b p _ _ ih => exact put_disc_cache b p ih

/-- C13 at the board after the opening move (2,3). -/
theorem reachable_cache_consistent_witness :
    Reachable (put_disc reset ⟨2, 3⟩).1 ∧
    (put_disc reset ⟨2, 3⟩).1.next_valid_spots = get_valid_spots (put_disc reset ⟨2, 3⟩).1 :=
  have h : Reachable (put_disc reset ⟨2, 3⟩).1 :=
    Reachable.step reset ⟨2, 3⟩ Reachable.init (by decide)
  ⟨h, reachable_cache_consistent _ h⟩

theorem flip_discs_dirs_sum (m : Int) (hm : m = BLACK ∨ m = WHITE) (c : Point) :
    ∀ (ds : List Point) (st : (Int → Int → Int) × (Int → Int)),
      (flip_discs_dirs m c ds st).2 EMPTY + (flip_discs_dirs m c ds st).2 BLACK +
        (flip_discs_dirs m c ds st).2 WHITE = st.2 EMPTY + st.2 BLACK + st.2 WHITE := by
  intro ds
  induction ds with
  | nil => intro st; rfl
  | cons d rest ih =>
    intro st
    unfold flip_discs_dirs
    simp only [get_next_player]
    split_ifs with hA
    · exact ih st
    · split
      · rename_i discs _
        rw [ih]
        simp only [disc_count_add, EMPTY, BLACK, WHITE] at hm ⊢
        rcases hm with rfl | rfl <;> norm_num <;> omega
      · exact ih st
      · rfl

/-- The tallies that a legal `put_disc` leaves. -/
theorem put_disc_tallies (b : OthelloBoard) (p : Point) (h : is_spot_valid b p = true) :
    (put_disc b p).1.disc_count =
      (flip_discs_dirs b.cur_player p directions
        (set_disc b.board p b.cur_player,
          disc_count_add (disc_count_add b.disc_count b.cur_player 1) EMPTY (-1))).2 := by
  unfold put_disc
  simp only [h, Bool.not_true, Bool.false_eq_true, if_false, flip_discs]
  split_ifs <;> rfl

theorem put_disc_tally_sum (b : OthelloBoard) (p : Point)
    (hcur : b.cur_player = BLACK ∨ b.cur_player = WHITE) :
    tally_sum (put_disc b p).1 = tally_sum b := by
  unfold tally_sum
  by_cases hv : is_spot_valid b p = true
  · rw [put_disc_tallies b p hv, flip_discs_dirs_sum b.cur_player hcur]
    simp only [disc_count_add, EMPTY, BLACK, WHITE] at hcur ⊢
    rcases hcur with h | h <;> rw [h] <;> norm_num <;> omega
  · have hv2 : is_spot_valid b p = false := by simpa using hv
    rw [put_disc_illegal_eq b p hv2]

theorem put_disc_cur_player (b : OthelloBoard) (p : Point)
    (hcur : b.cur_player = BLACK ∨ b.cur_player = WHITE) :
    (put_disc b p).1.cur_player = BLACK ∨ (put_disc b p).1.cur_player = WHITE := by
  have h3 : 3 - b.cur_player = BLACK ∨ 3 - b.cur_player = WHITE := by
    simp only [BLACK, WHITE] at hcur ⊢; omega
  by_cases hv : is_spot_valid b p = true
  · obtain ⟨_, hA, hB, hC⟩ := put_disc_legal_cases b p hv
    by_cases h1 : legal_moves (put_disc b p).1.board (3 - b.cur_player) = []
    · by_cases h2 : legal_moves (put_disc b p).1.board b.cur_player = []
      · rw [(hC h1 h2).1]; exact hcur
      · rw [(hB h1 h2).1]; exact hcur
    · rw [(hA h1).1]; exact h3
  · have hv2 : is_spot_valid b p = false := by simpa using hv
    rw [put_disc_illegal_eq b p hv2]
    exact hcur

theorem reachable_cur_player (b : OthelloBoard) (hb : Reachable b) :
    b.cur_player = BLACK ∨ b.cur_player = WHITE := by
  induction hb with
  | init => exact Or.inl rfl
  | step b p _ _ ih => exact put_disc_cur_player b p ih

theorem make_newboard_eq (curboard : OthelloBoard) (p : Point) :
    make_newboard curboard p = (put_disc (newboard_seed curboard) p).1 := rfl

theorem reachable_tally_sum (b : OthelloBoard) (hb : Reachable b) : tally_sum b = 64 := by
  induction hb with
  | init => decide
  | step b p hr _ ih => rw [put_disc_tally_sum b p (reachable_cur_player b hr), ih]

/-- C12. Disc conservation: for every board with side to move in {1, 2} and every on-board
point, `put_disc` preserves the sum of the three tallies; so the sum is 64 for every board
reachable from `reset()` by `put_disc` calls, and also for every search successor (a fresh
board whose grid and `cur_player` were overwritten, then one `put_disc`). -/
theorem tally_sum_conserved :
    (∀ (b : OthelloBoard) (p : Point), (b.cur_player = BLACK ∨ b.cur_player = WHITE) →
      is_spot_on_board p = true → tally_sum (put_disc b p).1 = tally_sum b) ∧
    (∀ b : OthelloBoard, Reachable b → tally_sum b = 64) ∧
    (∀ (curboard : OthelloBoard) (p : Point),
      (curboard.cur_player = BLACK ∨ curboard.cur_player = WHITE) →
      is_spot_on_board p = true → tally_sum (make_newboard curboard p) = 64) := by
  refine ⟨fun b p hcur _ => put_disc_tally_sum b p hcur, reachable_tally_sum, ?_⟩
  · intro curboard p hcur _
    rw [make_newboard_eq, put_disc_tally_sum (newboard_seed curboard) p hcur]
    show reset.disc_count EMPTY + reset.disc_count BLACK + reset.disc_count WHITE = 64
    decide

/-- C12 at the opening move (2,3): the board after it, and the search successor of the
fresh board by it. -/
theorem tally_sum_conserved_witness :
    (reset.cur_player = BLACK ∨ reset.cur_player = WHITE) ∧
    is_spot_on_board ⟨2, 3⟩ = true ∧ Reachable (put_disc reset ⟨2, 3⟩).1 ∧
    tally_sum (put_disc reset ⟨2, 3⟩).1 = tally_sum reset ∧
    tally_sum (put_disc reset ⟨2, 3⟩).1 = 64 ∧
    tally_sum (make_newboard reset ⟨2, 3⟩) = 64 :=
  have h1 : reset.cur_player = BLACK ∨ reset.cur_player = WHITE := Or.inl rfl
  have h2 : is_spot_on_board ⟨2, 3⟩ = true := by decide
  have h3 : Reachable (put_disc reset ⟨2, 3⟩).1 := Reachable.step reset ⟨2, 3⟩ Reachable.init h2
  ⟨h1, h2, h3, tally_sum_conserved.1 reset ⟨2, 3⟩ h1 h2, tally_sum_conserved.2.1 _ h3,
    tally_sum_conserved.2.2 reset ⟨2, 3⟩ h1 h2⟩


/-! ## What the search reads of a board -/

theorem make_newboard_congr (b1 b2 : OthelloBoard) (h1 : b1.board = b2.board)
    (h2 : b1.cur_player = b2.cur_player) (p : Point) :
    make_newboard b1 p = make_newboard b2 p := by
  simp only [make_newboard, h1, h2]

theorem find_heur_congr (b1 b2 : OthelloBoard) (h1 : b1.board = b2.board)
    (h2 : b1.cur_player = b2.cur_player) : find_heur b1 = find_heur b2 := by
  simp only [find_heur, get_valid_spots_congr b1 b2 h1 h2]

theorem minimax_max_loop_congr (child : OthelloBoard → Int → Int → Int)
    (b1 b2 : OthelloBoard) (h : ∀ p, make_newboard b1 p = make_newboard b2 p) (beta : Int) :
    ∀ (l : List Point) (maxheur alpha : Int),
      minimax_max_loop child b1 beta l maxheur alpha =
        minimax_max_loop child b2 beta l maxheur alpha := by
  intro l
  induction l with
  | nil => intro _ _; rfl
  | cons p rest ih =>
    intro maxheur alpha
    simp only [minimax_max_loop, h p, ih]

theorem minimax_min_loop_congr (child : OthelloBoard → Int → Int → Int)
    (b1 b2 : OthelloBoard) (h : ∀ p, make_newboard b1 p = make_newboard b2 p) (alpha : Int) :
    ∀ (l : List Point) (minheur beta : Int),
      minimax_min_loop child b1 alpha l minheur beta =
        minimax_min_loop child b2 alpha l minheur beta := by
  intro l
  induction l with
  | nil => intro _ _; rfl
  | cons p rest ih =>
    intro minheur beta
    simp only [minimax_min_loop, h p, ih]

/-- The two branches of `minimax` at a positive depth, with the side handed down written as
`minimax_child_side`. -/
theorem minimax_succ (curboard : OthelloBoard) (depth : Nat) (alpha beta curplayer : Int) :
    minimax curboard (depth + 1) alpha beta curplayer =
      if curboard.done then find_heur curboard
      else if curboard.cur_player = curplayer then
        minimax_max_loop
          (fun newboard a b => minimax newboard depth a b (minimax_child_side curboard curplayer))
          curboard beta (get_valid_spots curboard) (-10000000) alpha
      else
        minimax_min_loop
          (fun newboard a b => minimax newboard depth a b (minimax_child_side curboard curplayer))
          curboard alpha (get_valid_spots curboard) 10000000 beta := by
  rw [minimax]
  unfold minimax_child_side
  split_ifs <;> rfl

/-- C15. Search children inherit only grid and side: two boards that agree on grid,
`cur_player` and `done` get the same `minimax` value for the same depth, alpha, beta and
maximizing side, whatever their `disc_count`, `winner` and cached `next_valid_spots`; and every
successor built inside the search is `put_disc(p)` applied to a board that has the grid and
side of its parent, the fresh tallies {60, 2, 2}, `done = false` and `winner = -1`. -/
theorem minimax_reads_grid_side_done :
    (∀ (b1 b2 : OthelloBoard) (depth : Nat) (alpha beta curplayer : Int),
      b1.board = b2.board → b1.cur_player = b2.cur_player → b1.done = b2.done →
      minimax b1 depth alpha beta curplayer = minimax b2 depth alpha beta curplayer) ∧
    (∀ (curboard : OthelloBoard) (p : Point),
      make_newboard curboard p = (put_disc (newboard_seed curboard) p).1 ∧
      (newboard_seed curboard).board = curboard.board ∧
      (newboard_seed curboard).cur_player = curboard.cur_player ∧
      (newboard_seed curboard).disc_count EMPTY = 60 ∧
      (newboard_seed curboard).disc_count BLACK = 2 ∧
      (newboard_seed curboard).disc_count WHITE = 2 ∧
      (newboard_seed curboard).done = false ∧ (newboard_seed curboard).winner = -1) := by
  constructor
  · intro b1 b2 depth alpha beta curplayer h1 h2 h3
    have hnb : ∀ p, make_newboard b1 p = make_newboard b2 p := make_newboard_congr b1 b2 h1 h2
    cases depth with
    | zero => simp only [minimax, find_heur_congr b1 b2 h1 h2]
    | succ d =>
      simp only [minimax, find_heur_congr b1 b2 h1 h2, get_valid_spots_congr b1 b2 h1 h2, h2, h3,
        minimax_max_loop_congr _ b1 b2 hnb, minimax_min_loop_congr _ b1 b2 hnb]
  · intro curboard p
    refine ⟨rfl, rfl, rfl, ?_, ?_, ?_, rfl, rfl⟩
    · show reset.disc_count EMPTY = 60
      decide
    · show reset.disc_count BLACK = 2
      decide
    · show reset.disc_count WHITE = 2
      decide

/-- C15 at the fresh board and a copy of it with other tallies, winner and cached list. -/
theorem minimax_reads_grid_side_done_witness :
    minimax reset 1 (-10000000) 10000000 1 =
      minimax { reset with disc_count := fun _ => 0, winner := 2, next_valid_spots := [] } 1
        (-10000000) 10000000 1 :=
  minimax_reads_grid_side_done.1 reset
    { reset with disc_count := fun _ => 0, winner := 2, next_valid_spots := [] } 1
    (-10000000) 10000000 1 rfl rfl rfl

/-- C17. Maximizing-side bookkeeping (in particular for players in {1, 2}): `minimax`
recurses on each successor with the side `minimax_child_side`; when the move is not followed
by a pass (the
side to move of the successor is the opponent of the mover), that side differs from the side
to move of the successor, so the recursive call on a successor that is not finished runs the
minimizing branch, whether the parent was maximizing or minimizing; and a successor by a legal
move whose side to move equals the side handed down (a maximizing node below the root) has the
mover to move again, that is, it follows a pass. -/
theorem minimax_child_is_minimizing (curboard : OthelloBoard) (curplayer : Int) (p : Point) :
    (∀ (depth : Nat) (alpha beta : Int),
      minimax curboard (depth + 1) alpha beta curplayer =
        if curboard.done then find_heur curboard
        else if curboard.cur_player = curplayer then
          minimax_max_loop
            (fun newboard a b =>
              minimax newboard depth a b (minimax_child_side curboard curplayer))
            curboard beta (get_valid_spots curboard) (-10000000) alpha
        else
          minimax_min_loop
            (fun newboard a b =>
              minimax newboard depth a b (minimax_child_side curboard curplayer))
            curboard alpha (get_valid_spots curboard) 10000000 beta) ∧
    ((make_newboard curboard p).cur_player = 3 - curboard.cur_player →
      (make_newboard curboard p).cur_player ≠ minimax_child_side curboard curplayer ∧
      ∀ (depth : Nat) (alpha beta : Int), (make_newboard curboard p).done = false →
        minimax (make_newboard curboard p) (depth + 1) alpha beta
            (minimax_child_side curboard curplayer) =
          minimax_min_loop
            (fun newboard a b => minimax newboard depth a b
              (3 - minimax_child_side curboard curplayer))
            (make_newboard curboard p) alpha (get_valid_spots (make_newboard curboard p))
            10000000 beta) ∧
    (p ∈ get_valid_spots curboard →
      (make_newboard curboard p).cur_player = minimax_child_side curboard curplayer →
      (make_newboard curboard p).cur_player = curboard.cur_player) := by
  have hne : (make_newboard curboard p).cur_player = 3 - curboard.cur_player →
      (make_newboard curboard p).cur_player ≠ minimax_child_side curboard curplayer := by
    intro h
    rw [h]
    unfold minimax_child_side
    split_ifs with hc <;> omega
  refine ⟨fun depth alpha beta => minimax_succ curboard depth alpha beta curplayer, ?_, ?_⟩
  · intro h
    refine ⟨hne h, ?_⟩
    intro depth alpha beta hdone
    rw [minimax]
    simp only [hdone, Bool.false_eq_true, if_false, if_neg (hne h)]
  · intro hp hside
    have hv : is_spot_valid (newboard_seed curboard) p = true :=
      ((mem_get_valid_spots (newboard_seed curboard) p).1
        (by rw [get_valid_spots_congr (newboard_seed curboard) curboard rfl rfl]; exact hp)).2
    obtain ⟨_, hA, hB, hC⟩ := put_disc_legal_cases (newboard_seed curboard) p hv
    rw [make_newboard_eq] at hside hne ⊢
    by_cases h1 : legal_moves (put_disc (newboard_seed curboard) p).1.board
        (3 - (newboard_seed curboard).cur_player) = []
    · by_cases h2 : legal_moves (put_disc (newboard_seed curboard) p).1.board
          (newboard_seed curboard).cur_player = []
      · exact (hC h1 h2).1
      · exact (hB h1 h2).1
    · exact absurd hside (hne (hA h1).1)

/-- C17 at `corner_pass_board` with maximizing side Black: the move (3,0) is not followed
by a pass and its successor is a minimizing node. -/
theorem minimax_child_is_minimizing_witness :
    (make_newboard corner_pass_board ⟨3, 0⟩).cur_player = 3 - corner_pass_board.cur_player ∧
    (make_newboard corner_pass_board ⟨3, 0⟩).cur_player ≠
      minimax_child_side corner_pass_board 1 :=
  have h2 : (make_newboard corner_pass_board ⟨3, 0⟩).cur_player =
      3 - corner_pass_board.cur_player := by decide
  ⟨h2, ((minimax_child_is_minimizing corner_pass_board 1 ⟨3, 0⟩).2.1 h2).1⟩


/-! ## One ply of search, and bounds on the scores -/

theorem find_heur_eq (b : OthelloBoard) :
    find_heur b = 1956950 - 10 * ((get_valid_spots b).length : Int) := by
  unfold find_heur
  simp only [find_heur_cells_sum]
  ring

theorem get_valid_spots_length_le (b : OthelloBoard) : (get_valid_spots b).length ≤ 64 := by
  unfold get_valid_spots
  exact le_trans (List.length_filter_le _ _) (by decide)

theorem find_heur_bounds (b : OthelloBoard) :
    1956310 ≤ find_heur b ∧ find_heur b ≤ 1956950 := by
  rw [find_heur_eq]
  have := get_valid_spots_length_le b
  omega

/-- The maximizing loop when no child value reaches `beta`: no cut-off happens and the
result is the largest of the initial value and the child values. -/
theorem minimax_max_loop_leaf (g : OthelloBoard → Int) (b : OthelloBoard) (beta : Int) :
    ∀ (l : List Point) (maxheur alpha : Int),
      (∀ p ∈ l, g (make_newboard b p) < beta) → alpha < beta →
      maxheur ≤ minimax_max_loop (fun nb _ _ => g nb) b beta l maxheur alpha ∧
      (∀ q ∈ l, g (make_newboard b q) ≤
        minimax_max_loop (fun nb _ _ => g nb) b beta l maxheur alpha) ∧
      (minimax_max_loop (fun nb _ _ => g nb) b beta l maxheur alpha = maxheur ∨
        ∃ p ∈ l, minimax_max_loop (fun nb _ _ => g nb) b beta l maxheur alpha =
          g (make_newboard b p)) := by
  intro l
  induction l with
  | nil => intro maxheur alpha _ _; simp [minimax_max_loop]
  | cons p rest ih =>
    intro maxheur alpha hlt hab
    have hp := hlt p (List.mem_cons_self _ _)
    have hnb : ¬ beta ≤ max alpha (g (make_newboard b p)) := by
      rw [not_le]; exact max_lt hab hp
    obtain ⟨h1, h2, h3⟩ := ih (max maxheur (g (make_newboard b p)))
      (max alpha (g (make_newboard b p)))
      (fun q hq => hlt q (List.mem_cons_of_mem _ hq)) (max_lt hab hp)
    simp only [minimax_max_loop, if_neg hnb]
    refine ⟨le_trans (le_max_left _ _) h1, ?_, ?_⟩
    · intro q hq
      rcases List.mem_cons.1 hq with rfl | hq
      · exact le_trans (le_max_right _ _) h1
      · exact h2 q hq
    · rcases h3 with h3 | ⟨q, hq, h3⟩
      · rcases max_choice maxheur (g (make_newboard b p)) with hm | hm
        · left; rw [h3, hm]
        · right; exact ⟨p, List.mem_cons_self _ _, by rw [h3, hm]⟩
      · right; exact ⟨q, List.mem_cons_of_mem _ hq, h3⟩

/-- The minimizing loop when every penalised child value stays above `alpha`. -/
theorem minimax_min_loop_leaf (g : OthelloBoard → Int) (b : OthelloBoard) (alpha : Int) :
    ∀ (l : List Point) (minheur beta : Int),
      (∀ p ∈ l, alpha < g (make_newboard b p) - (if is_corner p then 50000 else 0)) →
      alpha < beta →
      minimax_min_loop (fun nb _ _ => g nb) b alpha l minheur beta ≤ minheur ∧
      (∀ q ∈ l, minimax_min_loop (fun nb _ _ => g nb) b alpha l minheur beta ≤
        g (make_newboard b q) - (if is_corner q then 50000 else 0)) ∧
      (minimax_min_loop (fun nb _ _ => g nb) b alpha l minheur beta = minheur ∨
        ∃ p ∈ l, minimax_min_loop (fun nb _ _ => g nb) b alpha l minheur beta =
          g (make_newboard b p) - (if is_corner p then 50000 else 0)) := by
  intro l
  induction l with
  | nil => intro minheur beta _ _; simp [minimax_min_loop]
  | cons p rest ih =>
    intro minheur beta hlt hab
    have hp := hlt p (List.mem_cons_self _ _)
    have hv : (if is_corner p = true then g (make_newboard b p) - 50000
        else g (make_newboard b p)) =
        g (make_newboard b p) - (if is_corner p then 50000 else 0) := by
      split_ifs <;> simp
    have hnb : ¬ min beta (g (make_newboard b p) - (if is_corner p then 50000 else 0)) ≤
        alpha := by
      rw [not_le]; exact lt_min hab hp
    obtain ⟨h1, h2, h3⟩ := ih
      (min minheur (g (make_newboard b p) - (if is_corner p then 50000 else 0)))
      (min beta (g (make_newboard b p) - (if is_corner p then 50000 else 0)))
      (fun q hq => hlt q (List.mem_cons_of_mem _ hq)) (lt_min hab hp)
    simp only [minimax_min_loop, hv, if_neg hnb]
    refine ⟨le_trans h1 (min_le_left _ _), ?_, ?_⟩
    · intro q hq
      rcases List.mem_cons.1 hq with rfl | hq
      · exact le_trans h1 (min_le_right _ _)
      · exact h2 q hq
    · rcases h3 with h3 | ⟨q, hq, h3⟩
      · rcases min_choice minheur
          (g (make_newboard b p) - (if is_corner p then 50000 else 0)) with hm | hm
        · left; rw [h3, hm]
        · right; exact ⟨p, List.mem_cons_self _ _, by rw [h3, hm]⟩
      · right; exact ⟨q, List.mem_cons_of_mem _ hq, h3⟩

/-- C14. One-ply search: for every board `b` with `done = false` and at least one legal
move, `minimax(b, 1, -10000000, 10000000, s)` is the maximum over the legal moves `p` of `b`
of `find_heur(succ(b, p))` when `b.cur_player = s`, and otherwise the minimum over the legal
moves `p` of `find_heur(succ(b, p)) - (50000 if p is a corner else 0)`, where `succ(b, p)` is a
fresh board given the grid and side of `b` and then `put_disc(p)`; with depth 0 or
`done = true` it returns `find_heur(b)`. -/
theorem minimax_one_ply (b : OthelloBoard) (s : Int) :
    (b.done = false → get_valid_spots b ≠ [] →
      (b.cur_player = s →
        (∃ p ∈ get_valid_spots b,
          minimax b 1 (-10000000) 10000000 s = find_heur (make_newboard b p)) ∧
        (∀ q ∈ get_valid_spots b,
          find_heur (make_newboard b q) ≤ minimax b 1 (-10000000) 10000000 s)) ∧
      (b.cur_player ≠ s →
        (∃ p ∈ get_valid_spots b,
          minimax b 1 (-10000000) 10000000 s =
            find_heur (make_newboard b p) - (if is_corner p then 50000 else 0)) ∧
        (∀ q ∈ get_valid_spots b,
          minimax b 1 (-10000000) 10000000 s ≤
            find_heur (make_newboard b q) - (if is_corner q then 50000 else 0)))) ∧
    (∀ alpha beta : Int, minimax b 0 alpha beta s = find_heur b) ∧
    (b.done = true → ∀ (depth : Nat) (alpha beta : Int),
      minimax b depth alpha beta s = find_heur b) := by
  refine ⟨?_, fun _ _ => rfl, ?_⟩
  · intro hdone hne
    obtain ⟨p0, hp0⟩ := List.exists_mem_of_ne_nil _ hne
    constructor
    · intro hs
      have hloop := minimax_max_loop_leaf find_heur b 10000000 (get_valid_spots b)
        (-10000000) (-10000000)
        (fun p _ => by have := (find_heur_bounds (make_newboard b p)).2; omega) (by norm_num)
      have hm : minimax b 1 (-10000000) 10000000 s =
          minimax_max_loop (fun nb _ _ => find_heur nb) b 10000000 (get_valid_spots b)
            (-10000000) (-10000000) := by
        simp only [minimax, hdone, hs, Bool.false_eq_true, if_false, if_true]
      rw [hm]
      obtain ⟨_, h2, h3⟩ := hloop
      refine ⟨?_, h2⟩
      rcases h3 with h3 | h3
      · have := h2 p0 hp0
        have := (find_heur_bounds (make_newboard b p0)).1
        omega
      · exact h3
    · intro hs
      have hloop := minimax_min_loop_leaf find_heur b (-10000000) (get_valid_spots b)
        10000000 10000000
        (fun p _ => by
          have := (find_heur_bounds (make_newboard b p)).1
          split_ifs <;> omega) (by norm_num)
      have hm : minimax b 1 (-10000000) 10000000 s =
          minimax_min_loop (fun nb _ _ => find_heur nb) b (-10000000) (get_valid_spots b)
            10000000 10000000 := by
        simp only [minimax, hdone, hs, Bool.false_eq_true, if_false]
      rw [hm]
      obtain ⟨_, h2, h3⟩ := hloop
      refine ⟨?_, h2⟩
      rcases h3 with h3 | h3
      · have h4 := h2 p0 hp0
        have := (find_heur_bounds (make_newboard b p0)).2
        split_ifs at h4 <;> omega
      · exact h3
  · intro hdone depth alpha beta
    cases depth with
    | zero => rfl
    | succ d => simp only [minimax, hdone, if_true]

set_option maxRecDepth 100000 in
/-- C14 at the fresh board, maximizing side Black. -/
theorem minimax_one_ply_witness :
    reset.done = false ∧ get_valid_spots reset ≠ [] ∧ reset.cur_player = 1 ∧
    (∃ p ∈ get_valid_spots reset,
      minimax reset 1 (-10000000) 10000000 1 = find_heur (make_newboard reset p)) ∧
    (∀ q ∈ get_valid_spots reset,
      find_heur (make_newboard reset q) ≤ minimax reset 1 (-10000000) 10000000 1) :=
  have h1 : reset.done = false := rfl
  have h2 : get_valid_spots reset ≠ [] := by decide
  have h3 : reset.cur_player = 1 := rfl
  ⟨h1, h2, h3, ((minimax_one_ply reset 1).1 h1 h2).1 h3⟩


/-- After any `put_disc` the board is finished or its side to move has a legal move. -/
theorem put_disc_done_or_moves (b : OthelloBoard) (p : Point) :
    (put_disc b p).1.done = true ∨ get_valid_spots (put_disc b p).1 ≠ [] := by
  by_cases hv : is_spot_valid b p = true
  · obtain ⟨_, hA, hB, hC⟩ := put_disc_legal_cases b p hv
    rw [get_valid_spots_eq]
    by_cases h1 : legal_moves (put_disc b p).1.board (3 - b.cur_player) = []
    · by_cases h2 : legal_moves (put_disc b p).1.board b.cur_player = []
      · exact Or.inl (hC h1 h2).2.2.1
      · right; rw [(hB h1 h2).1]; exact h2
    · right; rw [(hA h1).1]; exact h1
  · have hv2 : is_spot_valid b p = false := by simpa using hv
    rw [put_disc_illegal_eq b p hv2]
    exact Or.inl rfl

theorem minimax_max_loop_ge_init (child : OthelloBoard → Int → Int → Int)
    (b : OthelloBoard) (beta : Int) :
    ∀ (l : List Point) (maxheur alpha : Int),
      maxheur ≤ minimax_max_loop child b beta l maxheur alpha := by
  intro l
  induction l with
  | nil => intro maxheur alpha; simp [minimax_max_loop]
  | cons p rest ih =>
    intro maxheur alpha
    simp only [minimax_max_loop]
    split_ifs
    · exact le_max_left _ _
    · exact le_trans (le_max_left _ _) (ih _ _)

/-- The maximizing loop over a non-empty list returns at least the value of the first
child, cut-off or not. -/
theorem minimax_max_loop_lower (child : OthelloBoard → Int → Int → Int)
    (b : OthelloBoard) (beta : Int) (l : List Point) (hl : l ≠ []) (bound : Int)
    (h : ∀ p ∈ l, ∀ a c, bound ≤ child (make_newboard b p) a c) (maxheur alpha : Int) :
    bound ≤ minimax_max_loop child b beta l maxheur alpha := by
  cases l with
  | nil => exact absurd rfl hl
  | cons p rest =>
    have hp := h p (List.mem_cons_self _ _) alpha beta
    simp only [minimax_max_loop]
    split_ifs
    · exact le_trans hp (le_max_right _ _)
    · exact le_trans (le_trans hp (le_max_right _ _)) (minimax_max_loop_ge_init _ _ _ _ _ _)

/-- The minimizing loop returns at least a common lower bound of its initial value and of
the child values less the corner penalty. -/
theorem minimax_min_loop_lower (child : OthelloBoard → Int → Int → Int)
    (b : OthelloBoard) (alpha : Int) (bound : Int) :
    ∀ (l : List Point), (∀ p ∈ l, ∀ a c, bound + 50000 ≤ child (make_newboard b p) a c) →
      ∀ (minheur beta : Int), bound ≤ minheur →
        bound ≤ minimax_min_loop child b alpha l minheur beta := by
  intro l
  induction l with
  | nil => intro _ minheur beta hm; simpa [minimax_min_loop] using hm
  | cons p rest ih =>
    intro h minheur beta hm
    have hp := h p (List.mem_cons_self _ _) alpha beta
    have hv1 : bound ≤ child (make_newboard b p) alpha beta - 50000 := by omega
    have hv2 : bound ≤ child (make_newboard b p) alpha beta := by omega
    simp only [minimax_min_loop]
    split_ifs
    · exact le_min hm hv1
    · exact ih (fun q hq => h q (List.mem_cons_of_mem _ hq)) _ _ (le_min hm hv1)
    · exact le_min hm hv2
    · exact ih (fun q hq => h q (List.mem_cons_of_mem _ hq)) _ _ (le_min hm hv2)

/-- A lower bound on every value of `minimax`: each level can take at most one corner
penalty off the smallest leaf value. -/
theorem minimax_lower (depth : Nat) :
    ∀ (b : OthelloBoard) (alpha beta curplayer : Int),
      (b.done = true ∨ get_valid_spots b ≠ []) →
      1956310 - 50000 * (depth : Int) ≤ minimax b depth alpha beta curplayer := by
  induction depth with
  | zero =>
    intro b alpha beta curplayer _
    have := (find_heur_bounds b).1
    simpa [minimax] using this
  | succ d ih =>
    intro b alpha beta curplayer hb
    have hchild : ∀ (s : Int) (p : Point) (a c : Int),
        1956310 - 50000 * (d : Int) ≤ minimax (make_newboard b p) d a c s := by
      intro s p a c
      exact ih (make_newboard b p) a c s
        (by rw [make_newboard_eq]; exact put_disc_done_or_moves _ p)
    rw [minimax]
    by_cases hdone : b.done = true
    · simp only [hdone, if_true]
      have := (find_heur_bounds b).1
      push_cast
      omega
    · have hne : get_valid_spots b ≠ [] := by
        rcases hb with h | h
        · exact absurd h hdone
        · exact h
      simp only [hdone, Bool.false_eq_true, if_false]
      split_ifs
      · apply minimax_max_loop_lower _ b beta _ hne
        intro p _ a c
        have := hchild curplayer p a c
        push_cast
        omega
      · apply minimax_min_loop_lower
        · intro p _ a c
          have := hchild (3 - curplayer) p a c
          push_cast
          omega
        · push_cast
          omega

theorem write_valid_spot_score_eq (player : Int) (board_orgi : Int → Int → Int) (i : Nat)
    (hi : i < (get_valid_spots (write_valid_spot_curboard player board_orgi)).length) :
    write_valid_spot_score player board_orgi i =
      some (minimax (put_disc (write_valid_spot_curboard player board_orgi)
        ((get_valid_spots (write_valid_spot_curboard player board_orgi)).get ⟨i, hi⟩)).1 3
        (-10000000) 10000000 player) := by
  unfold write_valid_spot_score
  have : (get_valid_spots (write_valid_spot_curboard player board_orgi))[i]? =
      some ((get_valid_spots (write_valid_spot_curboard player board_orgi)).get ⟨i, hi⟩) := by
    simp [List.getElem?_eq_getElem hi]
  exact (by
    show (match (get_valid_spots (write_valid_spot_curboard player board_orgi))[i]? with
      | none => none
      | some p => some (minimax (put_disc (write_valid_spot_curboard player board_orgi) p).1 3
          (-10000000) 10000000 player)) = _
    rw [this])

/-- C18. Every top-level candidate score is strictly positive: for every grid, side and
point `p`, with `succ` the fresh board given that grid and side and then `put_disc(p)`,
`minimax(succ, 3, -10000000, 10000000, side) ≥ 1956950 - 640 - 3 * 50000 > 0`.  Hence when
the candidate list is non-empty and no longer than the legal-move list computed from the
board, `write_valid_spot` assigns its index and writes the supplied candidate at it. -/
theorem top_level_scores_positive :
    (∀ (player : Int) (board_orgi : Int → Int → Int) (p : Point),
      1956950 - 640 - 3 * 50000 ≤
        minimax (put_disc (write_valid_spot_curboard player board_orgi) p).1 3
          (-10000000) 10000000 player ∧
      0 < minimax (put_disc (write_valid_spot_curboard player board_orgi) p).1 3
          (-10000000) 10000000 player) ∧
    (∀ (player : Int) (board_orgi : Int → Int → Int) (next_valid_spots_orgi : List Point),
      next_valid_spots_orgi ≠ [] →
      next_valid_spots_orgi.length ≤
        (get_valid_spots (write_valid_spot_curboard player board_orgi)).length →
      ∃ index heur,
        write_valid_spot_loop player board_orgi next_valid_spots_orgi.length =
          some (some index, heur) ∧
        0 < heur ∧ index < next_valid_spots_orgi.length ∧
        write_valid_spot player board_orgi next_valid_spots_orgi =
          next_valid_spots_orgi[index]?) := by
  have hpos : ∀ (player : Int) (board_orgi : Int → Int → Int) (p : Point),
      1956950 - 640 - 3 * 50000 ≤
        minimax (put_disc (write_valid_spot_curboard player board_orgi) p).1 3
          (-10000000) 10000000 player := by
    intro player board_orgi p
    have := minimax_lower 3 (put_disc (write_valid_spot_curboard player board_orgi) p).1
      (-10000000) 10000000 player (put_disc_done_or_moves _ p)
    push_cast at this
    omega
  refine ⟨fun player board_orgi p => ⟨hpos player board_orgi p, ?_⟩, ?_⟩
  · have := hpos player board_orgi p
    omega
  · intro player board_orgi nvs hne hlen
    have hs : ∀ i, i < nvs.length → write_valid_spot_score player board_orgi i =
        some ((fun i => (write_valid_spot_score player board_orgi i).getD 0) i) := by
      intro i hi
      show write_valid_spot_score player board_orgi i =
        some ((write_valid_spot_score player board_orgi i).getD 0)
      rw [write_valid_spot_score_eq player board_orgi i (by omega)]
      rfl
    have hspos : ∀ i, i < nvs.length →
        0 < (write_valid_spot_score player board_orgi i).getD 0 := by
      intro i hi
      rw [write_valid_spot_score_eq player board_orgi i (by omega)]
      have := hpos player board_orgi
        ((get_valid_spots (write_valid_spot_curboard player board_orgi)).get ⟨i, by omega⟩)
      simp only [Option.getD_some]
      omega
    obtain ⟨index, heur, hloop, hnone, hsome⟩ :=
      write_valid_spot_loop_inv player board_orgi _ nvs.length hs
    have hn0 : 0 < nvs.length := List.length_pos.2 hne
    cases index with
    | none =>
      have := (hnone rfl).2 0 hn0
      have := hspos 0 hn0
      omega
    | some i0 =>
      obtain ⟨h1, h2, h3, _, _⟩ := hsome i0 rfl
      refine ⟨i0, heur, hloop, by rw [h3]; exact h2, h1, ?_⟩
      unfold write_valid_spot
      rw [hloop]

set_option maxRecDepth 100000 in
/-- C18 on `two_moves_grid` with Black deciding and the supplied list [(0,0), (1,0)]. -/
theorem top_level_scores_positive_witness :
    [(⟨0, 0⟩ : Point), ⟨1, 0⟩] ≠ [] ∧
    [(⟨0, 0⟩ : Point), ⟨1, 0⟩].length ≤
      (get_valid_spots (write_valid_spot_curboard 1 two_moves_grid)).length ∧
    ∃ index heur,
      write_valid_spot_loop 1 two_moves_grid [(⟨0, 0⟩ : Point), ⟨1, 0⟩].length =
        some (some index, heur) ∧
      0 < heur ∧ index < [(⟨0, 0⟩ : Point), ⟨1, 0⟩].length ∧
      write_valid_spot 1 two_moves_grid [(⟨0, 0⟩ : Point), ⟨1, 0⟩] =
        [(⟨0, 0⟩ : Point), ⟨1, 0⟩][index]? :=
  have h1 : [(⟨0, 0⟩ : Point), ⟨1, 0⟩] ≠ [] := by decide
  have h2 : [(⟨0, 0⟩ : Point), ⟨1, 0⟩].length ≤
      (get_valid_spots (write_valid_spot_curboard 1 two_moves_grid)).length := by decide
  ⟨h1, h2, top_level_scores_positive.2 1 two_moves_grid [⟨0, 0⟩, ⟨1, 0⟩] h1 h2⟩


/-! ## The tallies count the discs -/

theorem board_cells_nodup : board_cells.Nodup := by
  refine List.Pairwise.imp ?_ board_cells_sorted
  intro p q hlt heq
  subst heq
  unfold row_major_lt at hlt
  omega

theorem countP_congr_off (s : Point) (P Q : Point → Bool) (h : ∀ q, q ≠ s → P q = Q q) :
    ∀ l : List Point, s ∉ l → l.countP Q = l.countP P := by
  intro l
  induction l with
  | nil => intro _; rfl
  | cons a rest ih =>
    intro hs
    have ha : a ≠ s := fun h => hs (h ▸ List.mem_cons_self _ _)
    have hr : s ∉ rest := fun h => hs (List.mem_cons_of_mem _ h)
    rw [List.countP_cons, List.countP_cons, ih hr, h a ha]

theorem countP_update (s : Point) (P Q : Point → Bool) (h : ∀ q, q ≠ s → P q = Q q) :
    ∀ l : List Point, l.Nodup → s ∈ l →
      l.countP Q + (if P s then 1 else 0) = l.countP P + (if Q s then 1 else 0) := by
  intro l
  induction l with
  | nil => intro _ hs; cases hs
  | cons a rest ih =>
    intro hnd hs
    obtain ⟨hna, hnd2⟩ := List.nodup_cons.1 hnd
    rw [List.countP_cons, List.countP_cons]
    by_cases ha : a = s
    · subst ha
      rw [countP_congr_off a P Q h rest hna]
      omega
    · have hs2 : s ∈ rest := by
        rcases List.mem_cons.1 hs with h1 | h1
        · exact absurd h1.symm ha
        · exact h1
      have := ih hnd2 hs2
      rw [h a ha]
      omega

/-- One `set_disc` on an on-board cell moves one unit of the counts from the old disc of
the cell to the new. -/
theorem count_set_disc (g : Int → Int → Int) (s : Point) (hs : is_spot_on_board s = true)
    (m v : Int) :
    count_discs (set_disc g s m) v =
      count_discs g v + (if m = v then 1 else 0) - (if get_disc g s = v then 1 else 0) := by
  unfold count_discs
  have h := countP_update s (fun q => get_disc g q == v)
    (fun q => get_disc (set_disc g s m) q == v)
    (fun q hq => by simp only [set_disc_get, if_neg hq])
    board_cells board_cells_nodup ((mem_board_cells s).2 hs)
  have hQ : (get_disc (set_disc g s m) s == v) = (m == v) := by
    rw [set_disc_get, if_pos rfl]
  beta_reduce at h
  rw [hQ] at h
  by_cases h1 : m = v <;> by_cases h2 : get_disc g s = v <;>
    simp only [h1, h2, beq_self_eq_true, beq_iff_eq, if_true, if_false] at h ⊢ <;> omega

/-- Flipping a run of distinct on-board cells that all hold `o` to `m` moves the length of
the run from the count of `o` to the count of `m`. -/
theorem count_set_discs (m o : Int) :
    ∀ (discs : List Point) (g : Int → Int → Int), discs.Nodup →
      (∀ s ∈ discs, is_spot_on_board s = true ∧ get_disc g s = o) →
      ∀ v, count_discs (set_discs g m discs) v =
        count_discs g v + (if v = m then (discs.length : Int) else 0) -
          (if v = o then (discs.length : Int) else 0) := by
  intro discs
  induction discs with
  | nil => intro g _ _ v; simp [set_discs]
  | cons s rest ih =>
    intro g hnd h v
    obtain ⟨hns, hnd2⟩ := List.nodup_cons.1 hnd
    have hs := h s (List.mem_cons_self _ _)
    have hrest : ∀ x ∈ rest, is_spot_on_board x = true ∧ get_disc (set_disc g s m) x = o := by
      intro x hx
      have hxs : x ≠ s := fun hh => hns (hh ▸ hx)
      refine ⟨(h x (List.mem_cons_of_mem _ hx)).1, ?_⟩
      rw [set_disc_get, if_neg hxs]
      exact (h x (List.mem_cons_of_mem _ hx)).2
    unfold set_discs
    rw [ih (set_disc g s m) hnd2 hrest v, count_set_disc g s hs.1 m v, hs.2]
    simp only [List.length_cons]
    push_cast
    split_ifs <;> omega

theorem ray_injective (d : Point) (hd : d ∈ directions) (c : Point) (j k : Nat)
    (h : ray c d j = ray c d k) : j = k := by
  simp only [directions, List.mem_cons, List.mem_singleton, List.not_mem_nil, or_false] at hd
  have hx := congrArg Point.x h
  have hy := congrArg Point.y h
  simp only [ray] at hx hy
  rcases hd with rfl | rfl | rfl | rfl | rfl | rfl | rfl | rfl <;>
    (simp only at hx hy; omega)

theorem run_list_nodup (c d : Point) (hd : d ∈ directions) (n : Nat) :
    ([c + d] ++ (List.range n).map (fun j => ray (c + d + d) d j)).Nodup := by
  rw [List.nodup_append]
  refine ⟨List.nodup_singleton _, ?_, ?_⟩
  · refine List.Nodup.map ?_ (List.nodup_range n)
    intro j k hjk
    exact ray_injective d hd _ j k hjk
  · intro a ha hb
    rw [List.mem_singleton] at ha
    obtain ⟨j, _, hj⟩ := List.mem_map.1 hb
    rw [ray_add2, ha] at hj
    rw [← ray_one c d] at hj
    have := ray_injective d hd c _ _ hj
    omega

/-- The tallies keep counting the discs through the direction loop of `flip_discs`. -/
theorem flip_discs_dirs_counts (m : Int) (hm : m = BLACK ∨ m = WHITE) (c : Point) :
    ∀ (ds : List Point), (∀ d ∈ ds, d ∈ directions) →
      ∀ (st : (Int → Int → Int) × (Int → Int)), valid_grid st.1 →
        (∀ v, v = EMPTY ∨ v = BLACK ∨ v = WHITE → st.2 v = count_discs st.1 v) →
        valid_grid (flip_discs_dirs m c ds st).1 ∧
        ∀ v, v = EMPTY ∨ v = BLACK ∨ v = WHITE →
          (flip_discs_dirs m c ds st).2 v = count_discs (flip_discs_dirs m c ds st).1 v := by
  intro ds
  induction ds with
  | nil => intro _ st hg ht; exact ⟨hg, ht⟩
  | cons d rest ih =>
    intro hds st hg ht
    have hd : d ∈ directions := hds d (List.mem_cons_self _ _)
    have hrest : ∀ x ∈ rest, x ∈ directions := fun x hx => hds x (List.mem_cons_of_mem _ hx)
    unfold flip_discs_dirs
    simp only [get_next_player]
    by_cases hA : is_disc_at st.1 (c + d) (3 - m) = true
    · have hon := ((is_disc_at_iff _ _ _).1 hA).1
      have hfuel := flip_discs_scan_fuel st.1 m d hd c hon [c + d]
      simp only [hA, Bool.not_true, Bool.false_eq_true, if_false]
      cases hs : flip_discs_scan st.1 m d 8 (c + d + d) [c + d] with
      | none => exact absurd hs hfuel
      | some r =>
        cases r with
        | none => exact ih hrest st hg ht
        | some discs =>
          obtain ⟨n0, hn0, hw, hdiscs⟩ :=
            (flip_scan_some_iff st.1 m d 8 (c + d + d) [c + d] discs).1 hs
          have hrun0 : run_captured st.1 m c d (n0 + 2) :=
            (walk_run_iff st.1 m hg hm c d n0).1 ⟨hA, hw⟩
          have hcells : ∀ x ∈ discs, is_spot_on_board x = true ∧ get_disc st.1 x = 3 - m := by
            intro x hx
            rw [hdiscs] at hx
            obtain ⟨k, hk1, hk2, rfl⟩ := (mem_run_list c d x n0).1 hx
            exact (is_disc_at_iff _ _ _).1 (hrun0.2.1 k hk1 hk2)
          have hnd : discs.Nodup := by rw [hdiscs]; exact run_list_nodup c d hd n0
          have hcount := count_set_discs m (3 - m) discs st.1 hnd hcells
          apply ih hrest _ (set_discs_valid m hm discs st.1 hg)
          intro v hv
          simp only [disc_count_add]
          rw [hcount v]
          simp only [EMPTY, BLACK, WHITE] at hm hv
          have h0 := ht 0 (Or.inl rfl)
          have h1 := ht 1 (Or.inr (Or.inl rfl))
          have h2 := ht 2 (Or.inr (Or.inr rfl))
          rcases hm with rfl | rfl <;> rcases hv with rfl | rfl | rfl <;> norm_num <;> omega
    · have hA2 : is_disc_at st.1 (c + d) (3 - m) = false := by simpa using hA
      simp only [hA2, Bool.not_false, if_true]
      exact ih hrest st hg ht

/-- One `put_disc` at an on-board point keeps the three facts: cells in {0, 1, 2}, side
in {1, 2}, tallies equal to the disc counts. -/
theorem put_disc_counts (b : OthelloBoard) (p : Point) (hp : is_spot_on_board p = true)
    (hb : well_formed b)
    (ht : ∀ v, v = EMPTY ∨ v = BLACK ∨ v = WHITE → b.disc_count v = count_discs b.board v) :
    well_formed (put_disc b p).1 ∧
    ∀ v, v = EMPTY ∨ v = BLACK ∨ v = WHITE →
      (put_disc b p).1.disc_count v = count_discs (put_disc b p).1.board v := by
  by_cases hv : is_spot_valid b p = true
  · have hempty := is_spot_valid_empty b p hv
    have hseed : ∀ v, v = EMPTY ∨ v = BLACK ∨ v = WHITE →
        disc_count_add (disc_count_add b.disc_count b.cur_player 1) EMPTY (-1) v =
          count_discs (set_disc b.board p b.cur_player) v := by
      intro v hv
      rw [count_set_disc b.board p hp, hempty, ← ht v hv]
      have hm := hb.2
      simp only [disc_count_add, EMPTY, BLACK, WHITE] at hm hv ⊢
      rcases hm with h | h <;> rw [h] <;> rcases hv with rfl | rfl | rfl <;> norm_num <;>
        omega
    have key := flip_discs_dirs_counts b.cur_player hb.2 p directions (fun d hd => hd)
      (set_disc b.board p b.cur_player,
        disc_count_add (disc_count_add b.disc_count b.cur_player 1) EMPTY (-1))
      (set_disc_valid b.board hb.1 p b.cur_player hb.2) hseed
    rw [← put_disc_board b p hv, ← put_disc_tallies b p hv] at key
    exact ⟨⟨key.1, put_disc_cur_player b p hb.2⟩, key.2⟩
  · have hv2 : is_spot_valid b p = false := by simpa using hv
    rw [put_disc_illegal_eq b p hv2]
    exact ⟨hb, ht⟩

theorem reachable_counts (b : OthelloBoard) (hb : Reachable b) :
    well_formed b ∧
    ∀ v, v = EMPTY ∨ v = BLACK ∨ v = WHITE → b.disc_count v = count_discs b.board v := by
  induction hb with
  | init =>
    refine ⟨reset_well_formed, ?_⟩
    intro v hv
    rcases hv with rfl | rfl | rfl <;> decide
  | step b p _ hp ih => exact put_disc_counts b p hp ih.1 ih.2

theorem countP_add_not (p : Point → Bool) :
    ∀ l : List Point, l.countP p + l.countP (fun a => !p a) = l.length := by
  intro l
  induction l with
  | nil => rfl
  | cons a rest ih =>
    rw [List.countP_cons, List.countP_cons, List.length_cons]
    cases p a <;> simp <;> omega

theorem count_nonempty (g : Int → Int → Int) :
    ((board_cells.countP (fun q => get_disc g q != EMPTY) : Nat) : Int) =
      64 - count_discs g EMPTY := by
  unfold count_discs
  have h := countP_add_not (fun q => get_disc g q == EMPTY) board_cells
  have h64 : board_cells.length = 64 := by decide
  have hneg : board_cells.countP (fun q => !(get_disc g q == EMPTY)) =
      board_cells.countP (fun q => get_disc g q != EMPTY) := rfl
  rw [h64, hneg] at h
  omega


/-- C11. For every board reachable from `reset()` by any sequence of `put_disc` calls at
on-board points, legal or not, each tally equals the number of grid cells in that state:
`disc_count[EMPTY]`, `disc_count[BLACK]` and `disc_count[WHITE]` are the numbers of Empty, Black
and White cells, so the number of non-Empty cells is the sum of the two side tallies. -/
theorem tallies_count_discs (b : OthelloBoard) (hb : Reachable b) :
    b.disc_count EMPTY = count_discs b.board EMPTY ∧
    b.disc_count BLACK = count_discs b.board BLACK ∧
    b.disc_count WHITE = count_discs b.board WHITE ∧
    ((board_cells.countP (fun q => get_disc b.board q != EMPTY) : Nat) : Int) =
      b.disc_count BLACK + b.disc_count WHITE := by
  obtain ⟨_, ht⟩ := reachable_counts b hb
  have hsum := reachable_tally_sum b hb
  unfold tally_sum at hsum
  refine ⟨ht _ (Or.inl rfl), ht _ (Or.inr (Or.inl rfl)), ht _ (Or.inr (Or.inr rfl)), ?_⟩
  rw [count_nonempty, ← ht _ (Or.inl rfl)]
  omega

/-- C11 at the board after the opening move (2,3). -/
theorem tallies_count_discs_witness :
    Reachable (put_disc reset ⟨2, 3⟩).1 ∧
    (put_disc reset ⟨2, 3⟩).1.disc_count EMPTY =
      count_discs (put_disc reset ⟨2, 3⟩).1.board EMPTY ∧
    (put_disc reset ⟨2, 3⟩).1.disc_count BLACK =
      count_discs (put_disc reset ⟨2, 3⟩).1.board BLACK ∧
    (put_disc reset ⟨2, 3⟩).1.disc_count WHITE =
      count_discs (put_disc reset ⟨2, 3⟩).1.board WHITE ∧
    ((board_cells.countP (fun q => get_disc (put_disc reset ⟨2, 3⟩).1.board q != EMPTY) : Nat)
      : Int) =
      (put_disc reset ⟨2, 3⟩).1.disc_count BLACK + (put_disc reset ⟨2, 3⟩).1.disc_count WHITE :=
  have h : Reachable (put_disc reset ⟨2, 3⟩).1 :=
    Reachable.step reset ⟨2, 3⟩ Reachable.init (by decide)
  ⟨h, tallies_count_discs _ h⟩


/-! ## Grid accesses -/

theorem get_disc_checked_on (g : Int → Int → Int) (p : Point)
    (h : is_spot_on_board p = true) : get_disc_checked g p = .ok (get_disc g p) := by
  unfold get_disc_checked get_disc
  rw [if_pos ((on_board_iff p).1 h)]

theorem get_disc_checked_off (g : Int → Int → Int) (p : Point)
    (h : is_spot_on_board p = false) : get_disc_checked g p = .error Fault.out_of_range := by
  unfold get_disc_checked
  have : ¬ (0 ≤ p.x ∧ p.x < 8 ∧ 0 ≤ p.y ∧ p.y < 8) := by
    intro hh
    rw [(on_board_iff p).2 hh] at h
    cases h
  rw [if_neg this]

theorem set_disc_checked_on (g : Int → Int → Int) (p : Point) (d : Int)
    (h : is_spot_on_board p = true) : set_disc_checked g p d = .ok (set_disc g p d) := by
  unfold set_disc_checked set_disc
  rw [if_pos ((on_board_iff p).1 h)]

/-- The read of `is_disc_at` is guarded: it never leaves the grid. -/
theorem is_disc_at_checked_eq (g : Int → Int → Int) (p : Point) (d : Int) :
    is_disc_at_checked g p d = .ok (is_disc_at g p d) := by
  unfold is_disc_at_checked is_disc_at
  by_cases hon : is_spot_on_board p = true
  · simp only [hon, Bool.not_true, Bool.false_eq_true, if_false, get_disc_checked_on g p hon]
    split_ifs <;> rfl
  · simp [hon]

/-- The reads of the walk of `is_spot_valid` are guarded; the checked walk stops short
only when the budget is used up. -/
theorem is_spot_valid_scan_checked_eq (g : Int → Int → Int) (cur : Int) (dir : Point) :
    ∀ (fuel : Nat) (p : Point),
      is_spot_valid_scan_checked g cur dir fuel p =
        match is_spot_valid_scan g cur dir fuel p with
        | none => .error Fault.out_of_steps
        | some r => .ok r := by
  intro fuel
  induction fuel with
  | zero => intro p; rfl
  | succ fuel ih =>
    intro p
    unfold is_spot_valid_scan_checked is_spot_valid_scan
    by_cases hon : is_spot_on_board p = true
    · simp only [hon, if_true, get_disc_checked_on g p hon, is_disc_at_checked_eq,
        Bool.true_and]
      by_cases h0 : get_disc g p = EMPTY
      · simp [h0]
      · have h0b : (get_disc g p != EMPTY) = true := by simpa using h0
        simp only [h0b, if_true]
        cases hB : is_disc_at g p cur with
        | true => simp
        | false => simp [ih]
    · simp [hon]

theorem flip_discs_scan_checked_eq (g : Int → Int → Int) (cur : Int) (dir : Point) :
    ∀ (fuel : Nat) (p : Point) (discs : List Point),
      flip_discs_scan_checked g cur dir fuel p discs =
        match flip_discs_scan g cur dir fuel p discs with
        | none => .error Fault.out_of_steps
        | some r => .ok r := by
  intro fuel
  induction fuel with
  | zero => intro p discs; rfl
  | succ fuel ih =>
    intro p discs
    unfold flip_discs_scan_checked flip_discs_scan
    by_cases hon : is_spot_on_board p = true
    · simp only [hon, if_true, get_disc_checked_on g p hon, is_disc_at_checked_eq,
        Bool.true_and]
      by_cases h0 : get_disc g p = EMPTY
      · simp [h0]
      · have h0b : (get_disc g p != EMPTY) = true := by simpa using h0
        simp only [h0b, if_true]
        cases hB : is_disc_at g p cur with
        | true => simp
        | false => simp [ih]
    · simp [hon]

theorem is_spot_valid_dirs_checked_eq (g : Int → Int → Int) (cur : Int) (c : Point) :
    ∀ ds : List Point, (∀ d ∈ ds, d ∈ directions) →
      is_spot_valid_dirs_checked g cur c ds = .ok (is_spot_valid_dirs g cur c ds) := by
  intro ds
  induction ds with
  | nil => intro _; rfl
  | cons d rest ih =>
    intro hds
    have ih2 := ih (fun x hx => hds x (List.mem_cons_of_mem _ hx))
    unfold is_spot_valid_dirs_checked is_spot_valid_dirs
    simp only [is_disc_at_checked_eq, is_spot_valid_scan_checked_eq]
    cases hA : is_disc_at g (c + d) (get_next_player cur) with
    | false => simpa using ih2
    | true =>
      have hon := ((is_disc_at_iff _ _ _).1 hA).1
      have hfuel := is_spot_valid_scan_fuel g cur d (hds d (List.mem_cons_self _ _)) c hon
      cases hs : is_spot_valid_scan g cur d 8 (c + d + d) with
      | none => exact absurd hs hfuel
      | some r =>
        cases r with
        | true => simp
        | false => simpa using ih2

/-- The accesses of `is_spot_valid`: the read of `center` itself is the only one that can
leave the grid. -/
theorem is_spot_valid_checked_eq (b : OthelloBoard) (center : Point) :
    is_spot_valid_checked b center =
      if is_spot_on_board center then .ok (is_spot_valid b center)
      else .error Fault.out_of_range := by
  unfold is_spot_valid_checked is_spot_valid
  by_cases hon : is_spot_on_board center = true
  · simp only [hon, if_true, get_disc_checked_on b.board center hon,
      is_spot_valid_dirs_checked_eq b.board b.cur_player center directions (fun d hd => hd)]
    split_ifs <;> rfl
  · have hoff : is_spot_on_board center = false := by simpa using hon
    simp [hoff, get_disc_checked_off b.board center hoff]

theorem set_discs_checked_eq (m : Int) :
    ∀ (discs : List Point) (g : Int → Int → Int),
      (∀ s ∈ discs, is_spot_on_board s = true) →
      set_discs_checked m discs g = .ok (set_discs g m discs) := by
  intro discs
  induction discs with
  | nil => intro g _; rfl
  | cons s rest ih =>
    intro g h
    unfold set_discs_checked set_discs
    rw [set_disc_checked_on g s m (h s (List.mem_cons_self _ _))]
    exact ih _ (fun x hx => h x (List.mem_cons_of_mem _ hx))

/-- The accesses of the direction loop of `flip_discs` stay on the grid: every cell it
writes was tested by `is_disc_at` or by the `while` condition before it was collected. -/
theorem flip_discs_dirs_checked_eq (m : Int) (c : Point) :
    ∀ (ds : List Point), (∀ d ∈ ds, d ∈ directions) →
      ∀ (st : (Int → Int → Int) × (Int → Int)),
        flip_discs_dirs_checked m c ds st = .ok (flip_discs_dirs m c ds st) := by
  intro ds
  induction ds with
  | nil => intro _ st; rfl
  | cons d rest ih =>
    intro hds st
    have ih2 := ih (fun x hx => hds x (List.mem_cons_of_mem _ hx))
    unfold flip_discs_dirs_checked flip_discs_dirs
    simp only [is_disc_at_checked_eq, flip_discs_scan_checked_eq]
    cases hA : is_disc_at st.1 (c + d) (get_next_player m) with
    | false => simpa using ih2 st
    | true =>
      have hon := ((is_disc_at_iff _ _ _).1 hA).1
      have hfuel := flip_discs_scan_fuel st.1 m d (hds d (List.mem_cons_self _ _)) c hon
        [c + d]
      cases hs : flip_discs_scan st.1 m d 8 (c + d + d) [c + d] with
      | none => exact absurd hs hfuel
      | some r =>
        cases r with
        | none => simpa using ih2 st
        | some discs =>
          obtain ⟨n0, _, hw, hdiscs⟩ :=
            (flip_scan_some_iff st.1 m d 8 (c + d + d) [c + d] discs).1 hs
          have hall : ∀ s ∈ discs, is_spot_on_board s = true := by
            intro s hin
            rw [hdiscs] at hin
            rcases List.mem_append.1 hin with h1 | h1
            · rw [List.mem_singleton] at h1
              rw [h1]; exact hon
            · obtain ⟨j, hj, rfl⟩ := List.mem_map.1 h1
              exact (hw.1 j (List.mem_range.1 hj)).1
          simp only [Bool.not_true, Bool.false_eq_true, if_false,
            set_discs_checked_eq m discs st.1 hall]
          exact ih2 _

theorem get_valid_spots_cells_checked_eq (b : OthelloBoard) :
    ∀ l : List Point, (∀ p ∈ l, is_spot_on_board p = true) →
      get_valid_spots_cells_checked b l =
        .ok (l.filter fun p =>
          if get_disc b.board p != EMPTY then false else is_spot_valid b p) := by
  intro l
  induction l with
  | nil => intro _; rfl
  | cons p rest ih =>
    intro h
    have hon := h p (List.mem_cons_self _ _)
    have ih2 := ih (fun x hx => h x (List.mem_cons_of_mem _ hx))
    unfold get_valid_spots_cells_checked
    simp only [get_disc_checked_on b.board p hon, is_spot_valid_checked_eq, hon, if_true, ih2,
      List.filter_cons]
    by_cases h0 : get_disc b.board p = EMPTY
    · cases hv : is_spot_valid b p <;> simp [h0, hv]
    · have h0b : (get_disc b.board p != EMPTY) = true := by simpa using h0
      simp [h0b]

theorem get_valid_spots_checked_eq (b : OthelloBoard) :
    get_valid_spots_checked b = .ok (get_valid_spots b) := by
  have hcells : ∀ p ∈ board_cells, is_spot_on_board p = true :=
    fun p hp => (mem_board_cells p).1 hp
  have h := get_valid_spots_cells_checked_eq b board_cells hcells
  unfold get_valid_spots_checked
  rw [h]
  rfl

theorem put_disc_checked_eq (b : OthelloBoard) (p : Point) (hp : is_spot_on_board p = true) :
    put_disc_checked b p = .ok (put_disc b p) := by
  have hvc : is_spot_valid_checked b p = .ok (is_spot_valid b p) := by
    rw [is_spot_valid_checked_eq]
    simp only [hp, if_true]
  cases hv : is_spot_valid b p with
  | false =>
    rw [hv] at hvc
    rw [put_disc_illegal_eq b p hv]
    simp only [put_disc_checked, hvc]
  | true =>
    rw [hv] at hvc
    simp only [put_disc_checked, put_disc, hvc, hv,
      set_disc_checked_on b.board p b.cur_player hp, flip_discs_checked, flip_discs,
      flip_discs_dirs_checked_eq _ _ directions (fun d hd => hd), put_disc_finish_checked,
      get_valid_spots_checked_eq, Bool.not_true, Bool.false_eq_true, if_false]
    split_ifs <;> rfl

theorem put_disc_checked_off (b : OthelloBoard) (p : Point)
    (hp : is_spot_on_board p = false) :
    put_disc_checked b p = .error Fault.out_of_range := by
  unfold put_disc_checked
  rw [is_spot_valid_checked_eq]
  simp [hp]


/-- C20. Grid accesses stay in bounds.  In the code with every access `board[p.x][p.y]`
checked against the range 0..7 and every direction walk given a budget of 8 loop tests (at
most 7 steps): `get_valid_spots()` never stops short, on any board; `is_spot_valid(p)` and
`put_disc(p)` (with `flip_discs`) never stop short for an on-board `p`; each returns what the
unchecked code returns; the walks of both loops end within their budget; and the one access
that no bounds test guards is that of the cell `p` itself, so that for a `p` off the board,
and only then, `is_spot_valid(p)` stops with an out-of-range read. -/
theorem grid_accesses_in_bounds :
    (∀ (g : Int → Int → Int) (p : Point) (d : Int),
      is_disc_at_checked g p d = .ok (is_disc_at g p d)) ∧
    (∀ (b : OthelloBoard) (p : Point),
      is_spot_valid_checked b p =
        if is_spot_on_board p then .ok (is_spot_valid b p) else .error Fault.out_of_range) ∧
    (∀ b : OthelloBoard, get_valid_spots_checked b = .ok (get_valid_spots b)) ∧
    (∀ (b : OthelloBoard) (p : Point), is_spot_on_board p = true →
      put_disc_checked b p = .ok (put_disc b p)) ∧
    (∀ (b : OthelloBoard) (p : Point), is_spot_on_board p = false →
      put_disc_checked b p = .error Fault.out_of_range) ∧
    (∀ (g : Int → Int → Int) (cur : Int) (dir c : Point) (discs : List Point),
      dir ∈ directions → is_spot_on_board (c + dir) = true →
      (∃ r, is_spot_valid_scan_checked g cur dir 8 (c + dir + dir) = .ok r) ∧
      (∃ r, flip_discs_scan_checked g cur dir 8 (c + dir + dir) discs = .ok r)) := by
  refine ⟨is_disc_at_checked_eq, is_spot_valid_checked_eq, get_valid_spots_checked_eq,
    put_disc_checked_eq, put_disc_checked_off, ?_⟩
  intro g cur dir c discs hd hon
  constructor
  · rw [is_spot_valid_scan_checked_eq]
    have hfuel := is_spot_valid_scan_fuel g cur dir hd c hon
    cases hs : is_spot_valid_scan g cur dir 8 (c + dir + dir) with
    | none => exact absurd hs hfuel
    | some r => exact ⟨r, rfl⟩
  · rw [flip_discs_scan_checked_eq]
    have hfuel := flip_discs_scan_fuel g cur dir hd c hon discs
    cases hs : flip_discs_scan g cur dir 8 (c + dir + dir) discs with
    | none => exact absurd hs hfuel
    | some r => exact ⟨r, rfl⟩

/-- C20 at the opening move (2,3) of the fresh board. -/
theorem grid_accesses_in_bounds_witness :
    is_spot_on_board ⟨2, 3⟩ = true ∧
    put_disc_checked reset ⟨2, 3⟩ = .ok (put_disc reset ⟨2, 3⟩) :=
  have h1 : is_spot_on_board ⟨2, 3⟩ = true := by decide
  ⟨h1, grid_accesses_in_bounds.2.2.2.1 reset ⟨2, 3⟩ h1⟩

end Othello
